import Mathlib

/-
Verification of the hail2u/node-git-release release tool.

Strings are modelled as lists of characters.  The JavaScript string and
array operations used by the tool (split, join, replace with a callback,
regular-expression matching for the semver main-version pattern) are
embedded as executable Lean functions, and the orchestration pipeline of
src/index.js is embedded as a sequence of state-transforming steps over an
explicit file store, an effect log and a spawn-result oracle.
-/

namespace GitRelease

/-- JS `string.split(sep)` for a non-empty separator: scan left to right,
cutting at each non-overlapping occurrence of `sep`.  The result always has
at least one piece. -/
def splitNE (sep : List Char) : List Char → List (List Char)
  | [] => [[]]
  | c :: rest =>
    if sep.isPrefixOf (c :: rest) then
      [] :: splitNE sep (rest.drop (sep.length - 1))
    else
      (splitNE sep rest).modifyHead (fun p => c :: p)
termination_by s => s.length
decreasing_by
  · simp only [List.length_cons, List.length_drop]
    omega
  · simp

/-- JS `string.split(sep)`: the empty separator splits into the individual
characters (and the empty string yields an empty array); a non-empty
separator behaves as `splitNE`. -/
def jsSplit (sep s : List Char) : List (List Char) :=
  if sep = [] then s.map (fun c => [c]) else splitNE sep s

/-- JS `array.join(sep)` on a list of strings. -/
def joinSep (sep : List Char) : List (List Char) → List Char
  | [] => []
  | [p] => p
  | p :: ps => p ++ sep ++ joinSep sep ps

/-- The token returned by the uniform-CRLF branch of `detectLineEnding` in
src/index.js: the literal in the code is carriage return followed by a form
feed. -/
def crffToken : List Char := ['\r', '\x0C']

/-- `detectLineEnding` from src/index.js lines 61-79 (the same function
appears in git-release.js and in the unnamed variants): compare the lengths
of the splits of the input on CRLF, on CR and on CL, then pick a token. -/
def detectLineEnding (string : List Char) : List Char :=
  let cl := (jsSplit ['\r', '\n'] string).length
  let cr := (jsSplit ['\r'] string).length
  let lf := (jsSplit ['\n'] string).length
  if cr + lf = 0 then
    []
  else if cl = cr ∧ cl = lf then
    crffToken
  else if lf < cr then
    ['\r']
  else
    ['\n']

/-- One numeric identifier of the semver main-version pattern, the group
matching a lone zero, or a non-zero digit followed by the maximal run of
digits.  Mirrors the backtracking behaviour of the JS regex alternation: at
a zero the first alternative matches exactly one character, and the second
alternative can never match there. -/
def matchNum : List Char → Option (List Char × List Char)
  | [] => none
  | c :: rest =>
    if c = '0' then
      some (['0'], rest)
    else if c.isDigit then
      some (c :: rest.takeWhile Char.isDigit, rest.dropWhile Char.isDigit)
    else
      none

/-- Match `semver.re[3]` (the unanchored main-version pattern
`(0|[1-9]\d+star)\.(...)\.(...)`) at the start of the string, returning the
matched substring and the remainder. -/
def matchMainAt (s : List Char) : Option (List Char × List Char) :=
  match matchNum s with
  | none => none
  | some (n1, r1) =>
    match r1 with
    | '.' :: r2 =>
      match matchNum r2 with
      | none => none
      | some (n2, r3) =>
        match r3 with
        | '.' :: r4 =>
          match matchNum r4 with
          | none => none
          | some (n3, r5) => some (n1 ++ '.' :: n2 ++ '.' :: n3, r5)
        | _ => none
    | _ => none

/-- Leftmost match of the main-version pattern in a string, as JS
`string.match` with a non-global regex finds it: the decomposition into the
text before the match, the matched substring, and the text after it. -/
def firstMatch : List Char → Option (List Char × List Char × List Char)
  | [] => none
  | c :: rest =>
    match matchMainAt (c :: rest) with
    | some (m, after) => some ([], m, after)
    | none =>
      match firstMatch rest with
      | some (pre, m, after) => some (c :: pre, m, after)
      | none => none

/-- The replacement callback of `increment` in src/index.js lines 245-251
applied through JS `line.replace(config.re, fn)`: replace the first match of
the version pattern; inside the callback, when the shared version is still
unset (the empty string, which is falsy) it is computed by the external
version-math collaborator `inc` from the matched substring, and the stored
value is returned as the replacement.  Returns the rewritten line and the
new shared version.  If the line has no match, JS replace returns the line
unchanged and the callback never runs. -/
def replaceInc (inc : List Char → List Char) (version line : List Char) :
    List Char × List Char :=
  match firstMatch line with
  | none => (line, version)
  | some (pre, m, post) =>
    let v := if version = [] then inc m else version
    (pre ++ v ++ post, v)

/-- The working tree, as an association list from file name to content;
`fs.readFileSync` is a lookup. -/
def lookupStore : List (String × List Char) → String → Option (List Char)
  | [], _ => none
  | (g, c) :: rest, f => if g = f then some c else lookupStore rest f

/-- `fs.writeFileSync`: replace the content stored under the file name, or
append the file when absent. -/
def updateStore : List (String × List Char) → String → List Char →
    List (String × List Char)
  | [], f, c => [(f, c)]
  | (g, c0) :: rest, f, c =>
    if g = f then (f, c) :: rest else (g, c0) :: updateStore rest f c

/-- Result of one `child_process.spawnSync` call: whether the spawn itself
failed (`child.error`), the exit status, and the captured stderr. -/
structure SpawnRes where
  error : Bool
  status : Int
  stderr : List Char
deriving DecidableEq

/-- Oracle for the external processes the run may spawn. -/
structure World where
  addRes : String → SpawnRes
  testRes : SpawnRes
  commitRes : SpawnRes
  tagRes : SpawnRes
  pushRes : SpawnRes
  publishRes : SpawnRes

/-- The command-line and discovered configuration of one invocation of
src/index.js: the release type, the boolean flags, and the results of the
read-only discovery steps (remote URL, package.json facts). -/
structure Config where
  type : List Char
  dryRun : Bool
  test : Bool
  push : Bool
  publish : Bool
  hasTestScript : Bool
  remoteURL : List Char
  npmHasVersion : Bool
  npmPrivate : Bool
  npmPublishConfig : Bool

/-- Mutating external actions and file writes performed by a run, in
order. -/
inductive Eff where
  | writeFile (file : String) (content : List Char)
  | gitAdd (file : String)
  | gitCommit (version : List Char)
  | gitTag (version : List Char)
  | gitPush (version : List Char)
  | npmPublish
deriving DecidableEq

/-- The error kinds a run can raise. -/
inductive Err where
  | badType (t : List Char)
  | fileNotFound (f : String)
  | invalidLine (tok : List Char)
  | typeError
  | spawnError
  | cmdFailed (stderr : List Char)
deriving DecidableEq

/-- Run state threaded through the pipeline: the file store, the shared
version value (empty string when unset, as in the code), the effect log,
and the raised error if the run has aborted. -/
structure RunSt where
  store : List (String × List Char)
  version : List Char
  effects : List Eff
  err : Option Err
deriving DecidableEq

/-- Initial run state over a given working tree. -/
def initSt (store : List (String × List Char)) : RunSt :=
  { store := store, version := [], effects := [], err := none }

/-- The release-type check of `inspect` (src/index.js line 111): the regex
there accepts exactly these seven keywords. -/
def isReleaseType (t : List Char) : Bool :=
  t = ("major").data || t = ("premajor").data || t = ("minor").data ||
    t = ("preminor").data || t = ("patch").data || t = ("prepatch").data ||
    t = ("prerelease").data

/-- The `inspect` step: abort with a descriptive error unless the release
type is one of the seven keywords. -/
def inspectStep (type : List Char) (st : RunSt) : RunSt :=
  if st.err.isSome then st
  else if isReleaseType type then st
  else { st with err := some (.badType type) }

/-- The `test` step of src/index.js lines 147-175: skipped when testing is
disabled, when package.json has no test script, or in dry-run mode;
otherwise npm test is spawned and a spawn failure aborts. -/
def testStep (cfg : Config) (w : World) (st : RunSt) : RunSt :=
  if st.err.isSome then st
  else if !cfg.test then st
  else if !cfg.hasTestScript then st
  else if cfg.dryRun then st
  else if w.testRes.error then { st with err := some .spawnError }
  else st

/-- The `^\d+$` check of src/index.js line 224 on a line-number token. -/
def lineTokenValid (tok : List Char) : Bool :=
  !tok.isEmpty && tok.all Char.isDigit

/-- Decimal value of an all-digit token, as JS number coercion reads it. -/
def digitsToNat (s : List Char) : Nat :=
  s.foldl (fun acc c => acc * 10 + (c.toNat - '0'.toNat)) 0

/-- The per-entry validation of `getConfigTarget` (src/index.js lines
213-232): each configured target must name an existing file and carry a
line token matching the digit regex; the first offender aborts.  Valid
entries become (file, numeric line) pairs. -/
def validateTargets (store : List (String × List Char)) :
    List (String × List Char) → Except Err (List (String × Nat))
  | [] => .ok []
  | (f, tok) :: rest =>
    if (lookupStore store f).isNone then .error (.fileNotFound f)
    else if !lineTokenValid tok then .error (.invalidLine tok)
    else
      match validateTargets store rest with
      | .error e => .error e
      | .ok ts => .ok ((f, digitsToNat tok) :: ts)

/-- The validation stage of the pipeline, producing the target list. -/
def validateStep (raw : List (String × List Char)) (st : RunSt) :
    RunSt × List (String × Nat) :=
  if st.err.isSome then (st, [])
  else
    match validateTargets st.store raw with
    | .error e => ({ st with err := some e }, [])
    | .ok ts => (st, ts)

/-- One iteration of the `increment` loop (src/index.js lines 238-273):
read the file, detect its line ending, split, rewrite the selected line by
replacing its first version match with the shared version value (computing
that value from the match when still unset), then, unless in dry-run mode,
write the file back joined with the detected token and stage it with
git add, whose spawn failure aborts; the exit status of git add is never
inspected.  Accessing a line index outside the split sequence is the JS
undefined-receiver TypeError. -/
def incrementOne (inc : List Char → List Char) (dryRun : Bool) (w : World)
    (st : RunSt) (t : String × Nat) : RunSt :=
  match lookupStore st.store t.1 with
  | none => { st with err := some (.fileNotFound t.1) }
  | some source =>
    let le := detectLineEnding source
    let lines := jsSplit le source
    if h : 1 ≤ t.2 ∧ t.2 - 1 < lines.length then
      let old := lines.get ⟨t.2 - 1, h.2⟩
      let rv := replaceInc inc st.version old
      if dryRun then
        { st with version := rv.2 }
      else
        let newContent := joinSep le (lines.set (t.2 - 1) rv.1)
        let st1 : RunSt :=
          { store := updateStore st.store t.1 newContent,
            version := rv.2,
            effects := st.effects ++ [.writeFile t.1 newContent, .gitAdd t.1],
            err := st.err }
        if (w.addRes t.1).error then { st1 with err := some .spawnError }
        else st1
    else
      { st with err := some .typeError }

/-- The whole `increment` loop: process the targets in order; a raised
error propagates out of the loop and skips the remaining targets. -/
def incrementAll (inc : List Char → List Char) (dryRun : Bool) (w : World)
    (ts : List (String × Nat)) (st : RunSt) : RunSt :=
  ts.foldl (fun s t => if s.err.isSome then s else incrementOne inc dryRun w s t) st

/-- The `commit` step (src/index.js lines 277-302): skipped in dry-run;
otherwise git commit is spawned, a spawn failure aborts, and a non-zero
exit status aborts only when stderr is non-empty. -/
def commitStep (dryRun : Bool) (w : World) (st : RunSt) : RunSt :=
  if st.err.isSome then st
  else if dryRun then st
  else
    let st1 := { st with effects := st.effects ++ [.gitCommit st.version] }
    if w.commitRes.error then { st1 with err := some .spawnError }
    else if w.commitRes.status ≠ 0 ∧ w.commitRes.stderr ≠ [] then
      { st1 with err := some (.cmdFailed w.commitRes.stderr) }
    else st1

/-- The `tag` step (src/index.js lines 305-328), same abort policy as
commit. -/
def tagStep (dryRun : Bool) (w : World) (st : RunSt) : RunSt :=
  if st.err.isSome then st
  else if dryRun then st
  else
    let st1 := { st with effects := st.effects ++ [.gitTag st.version] }
    if w.tagRes.error then { st1 with err := some .spawnError }
    else if w.tagRes.status ≠ 0 ∧ w.tagRes.stderr ≠ [] then
      { st1 with err := some (.cmdFailed w.tagRes.stderr) }
    else st1

/-- The remote URL after `getRemoteURL` (src/index.js lines 331-350): an
empty trimmed stdout becomes the sentinel string N/A. -/
def remoteOrNA (remoteURL : List Char) : List Char :=
  if remoteURL = [] then ['N', '/', 'A'] else remoteURL

/-- The `push` step (src/index.js lines 353-390): skipped when pushing is
disabled or no remote is configured or in dry-run mode; otherwise git push
is spawned with the abort policy of commit. -/
def pushStep (cfg : Config) (w : World) (st : RunSt) : RunSt :=
  if st.err.isSome then st
  else if !cfg.push then st
  else if remoteOrNA cfg.remoteURL = ['N', '/', 'A'] then st
  else if cfg.dryRun then st
  else
    let st1 := { st with effects := st.effects ++ [.gitPush st.version] }
    if w.pushRes.error then { st1 with err := some .spawnError }
    else if w.pushRes.status ≠ 0 ∧ w.pushRes.stderr ≠ [] then
      { st1 with err := some (.cmdFailed w.pushRes.stderr) }
    else st1

/-- The `publish` step (src/index.js lines 393-433): skipped when
publishing is disabled, the package has no version, is private, or has a
publishConfig, or in dry-run mode; otherwise npm publish is spawned and
only a spawn failure aborts; the exit status is never inspected. -/
def publishStep (cfg : Config) (w : World) (st : RunSt) : RunSt :=
  if st.err.isSome then st
  else if !cfg.publish then st
  else if !cfg.npmHasVersion then st
  else if cfg.npmPrivate then st
  else if cfg.npmPublishConfig then st
  else if cfg.dryRun then st
  else
    let st1 := { st with effects := st.effects ++ [.npmPublish] }
    if w.publishRes.error then { st1 with err := some .spawnError }
    else st1

/-- The final success message of src/index.js lines 481-487. -/
def releasedMsg (v : List Char) (dry : Bool) : List Char :=
  ("Released version ").data ++ v ++ (", without errors").data ++
    (if dry then (" (dry-run)").data else [])

/-- The whole run of src/index.js (default switch branch, lines 453-488):
inspect the release type, run the tests, read and validate the targets,
increment them all, then commit, tag, push and publish; the read-only
discovery steps are represented by their results inside `Config`.  Returns
the effect log together with either the raised error or the final success
message. -/
def runRelease (inc : List Char → List Char) (cfg : Config) (w : World)
    (store : List (String × List Char)) (raw : List (String × List Char)) :
    List Eff × Except Err (List Char) :=
  let st1 := inspectStep cfg.type (initSt store)
  let st2 := testStep cfg w st1
  let p := validateStep raw st2
  let st4 := incrementAll inc cfg.dryRun w p.2 p.1
  let st5 := commitStep cfg.dryRun w st4
  let st6 := tagStep cfg.dryRun w st5
  let st7 := pushStep cfg w st6
  let st8 := publishStep cfg w st7
  (st8.effects,
    match st8.err with
    | some e => .error e
    | none => .ok (releasedMsg st8.version cfg.dryRun))

/-- The validated target list of a run, for stating properties about the
increment phase of a successful run. -/
def validatedTargets (store : List (String × List Char))
    (raw : List (String × List Char)) : List (String × Nat) :=
  match validateTargets store raw with
  | .ok ts => ts
  | .error _ => []

/-- The selected line of a target in a working tree: read the file, detect
the line ending, split, and index with the one-based configured line
number; none when the file is missing or the index falls outside the split
sequence. -/
def targetLine (store : List (String × List Char)) (t : String × Nat) :
    Option (List Char) :=
  match lookupStore store t.1 with
  | none => none
  | some source =>
    let lines := jsSplit (detectLineEnding source) source
    if h : 1 ≤ t.2 ∧ t.2 - 1 < lines.length then
      some (lines.get ⟨t.2 - 1, h.2⟩)
    else none

/-- The first version match on the selected line of a target, as the
decomposition before/match/after. -/
def targetMatch (store : List (String × List Char)) (t : String × Nat) :
    Option (List Char × List Char × List Char) :=
  match targetLine store t with
  | none => none
  | some line => firstMatch line

/-- The content a target file holds after its selected line had its first
version match replaced by the string `v`: read from the original tree,
split by the detected line ending, substitute on the selected line, join
with the same token. -/
def patchedContent (store : List (String × List Char)) (t : String × Nat)
    (v : List Char) : Option (List Char) :=
  match lookupStore store t.1 with
  | none => none
  | some source =>
    let le := detectLineEnding source
    let lines := jsSplit le source
    if h : 1 ≤ t.2 ∧ t.2 - 1 < lines.length then
      match firstMatch (lines.get ⟨t.2 - 1, h.2⟩) with
      | none => none
      | some (pre, _, post) =>
        some (joinSep le (lines.set (t.2 - 1) (pre ++ v ++ post)))
    else none

/-- The bad-argument rule of src/index.js lines 437-440: when neither help
nor version output was requested and the positional-argument count is not
one, the run shows help and flags the arguments as bad. -/
def indexBadArgs (help ver : Bool) (positionals : Nat) : Bool :=
  !help && !ver && positionals != 1

/-- The process exit code of the argument-handling path of src/index.js
lines 490-492: one exactly when the arguments were flagged bad, else
zero. -/
def indexArgExitCode (help ver : Bool) (positionals : Nat) : Nat :=
  if indexBadArgs help ver positionals then 1 else 0

/-- The argument handling of src/git-release.js lines 37-57: the version
flag exits with zero; otherwise on the help flag or any positional count
other than one the usage text is printed and the process exits with the
positional count itself as the exit code; none means the run proceeds. -/
def gitReleaseArgExit (ver help : Bool) (positionals : Nat) : Option Nat :=
  if ver then some 0
  else if help || positionals != 1 then some positionals
  else none

/-- Effects that can only stem from steps after the commit step. -/
def isPostCommitEff : Eff → Bool
  | .gitTag _ => true
  | .gitPush _ => true
  | .npmPublish => true
  | _ => false

/-- Effects that can only stem from steps after the tag step. -/
def isPostTagEff : Eff → Bool
  | .gitPush _ => true
  | .npmPublish => true
  | _ => false

/-- Effects that can only stem from steps after the push step. -/
def isPostPushEff : Eff → Bool
  | .npmPublish => true
  | _ => false

/-- Character class `[-.0-9a-zA-Z]` of the `reSemver` pattern in
src/git-release.js line 14. -/
def isSemverCls1 (c : Char) : Bool :=
  c = '-' || c = '.' || c.isDigit || c.isAlpha

/-- Character class `[.0-9a-zA-Z]` (second character of the pre-release
group of `reSemver`). -/
def isSemverCls2Pre (c : Char) : Bool :=
  c = '.' || c.isDigit || c.isAlpha

/-- Character class `[-0-9a-zA-Z]` (second character of the build group of
`reSemver`). -/
def isSemverCls2Build (c : Char) : Bool :=
  c = '-' || c.isDigit || c.isAlpha

/-- One maximal run of digits, the `\d+` of `reSemver`: greedy, with any
leading zeros (unlike the main-version pattern of the semver library). -/
def matchDigits : List Char → Option (List Char × List Char)
  | [] => none
  | c :: rest =>
    if c.isDigit then
      some (c :: rest.takeWhile Char.isDigit, rest.dropWhile Char.isDigit)
    else
      none

/-- One optional group `(lead cls1? cls2)?` of `reSemver`, with the JS
backtracking order: after the lead character the optional `cls1` character
is consumed greedily, and if the required `cls2` character then fails the
optional one is given back; a group that cannot complete matches the empty
string.  Returns the matched part and the remainder. -/
def optGroup (lead : Char) (cls1 cls2 : Char → Bool) :
    List Char → List Char × List Char
  | [] => ([], [])
  | c :: rest =>
    if c = lead then
      match rest with
      | [] => ([], c :: rest)
      | d :: rest2 =>
        if cls1 d then
          match rest2 with
          | e :: rest3 =>
            if cls2 e then ([c, d, e], rest3)
            else if cls2 d then ([c, d], rest2)
            else ([], c :: d :: rest2)
          | [] =>
            if cls2 d then ([c, d], rest2)
            else ([], c :: d :: rest2)
        else if cls2 d then ([c, d], rest2)
        else ([], c :: rest)
    else ([], c :: rest)

/-- Match the `reSemver` pattern of src/git-release.js line 14
(three dot-separated digit runs followed by the two optional groups) at the
start of the string, returning the matched substring and the remainder. -/
def matchSemverGRAt (s : List Char) : Option (List Char × List Char) :=
  match matchDigits s with
  | none => none
  | some (d1, r1) =>
    match r1 with
    | '.' :: r2 =>
      match matchDigits r2 with
      | none => none
      | some (d2, r3) =>
        match r3 with
        | '.' :: r4 =>
          match matchDigits r4 with
          | none => none
          | some (d3, r5) =>
            let g1 := optGroup '-' isSemverCls1 isSemverCls2Pre r5
            let g2 := optGroup '+' isSemverCls1 isSemverCls2Build g1.2
            some (d1 ++ '.' :: d2 ++ '.' :: d3 ++ g1.1 ++ g2.1, g2.2)
        | _ => none
    | _ => none

/-- Leftmost match of `reSemver` in a string, as JS replace with the
non-global regex finds it: the decomposition into the text before the
match, the matched substring, and the text after it. -/
def firstMatchGR : List Char → Option (List Char × List Char × List Char)
  | [] => none
  | c :: rest =>
    match matchSemverGRAt (c :: rest) with
    | some (m, after) => some ([], m, after)
    | none =>
      match firstMatchGR rest with
      | some (pre, m, after) => some (c :: pre, m, after)
      | none => none

/-- The replace callback of src/git-release.js lines 176-181 applied
through `lines[line].replace(reSemver, fn)`: the shared version is
reassigned unconditionally from every match (there is no guard, unlike
src/index.js), and the freshly computed value is the replacement. -/
def replaceIncGR (inc : List Char → List Char) (version line : List Char) :
    List Char × List Char :=
  match firstMatchGR line with
  | none => (line, version)
  | some (pre, m, post) => (pre ++ inc m ++ post, inc m)

/-- State of the increment step of src/git-release.js: the working tree,
the shared version, and the first error handed to the series callback. -/
structure GRSt where
  store : List (String × List Char)
  version : List Char
  err : Option Err
deriving DecidableEq

/-- The async-series callback keeps only its first error; later calls are
ignored. -/
def keepFirst : Option Err → Err → Option Err
  | none, e => some e
  | some e0, _ => some e0

/-- One target of the increment step of src/git-release.js lines 157-193:
the existence and line-token checks are inline; their failures are handed
to the series callback but do not stop the forEach, so later targets are
still processed.  On a valid target the file is read, split by the
detected line ending, the selected line rewritten through the unguarded
replace callback, and, unless in dry-run mode, written back; there is no
staging in this variant.  A line index outside the split sequence is the
synchronous JS undefined-receiver TypeError, which does abort the loop. -/
def incrementOneGR (inc : List Char → List Char) (dryRun : Bool)
    (st : GRSt) (t : String × List Char) : Except Err GRSt :=
  match lookupStore st.store t.1 with
  | none => .ok { st with err := keepFirst st.err (.fileNotFound t.1) }
  | some source =>
    if !lineTokenValid t.2 then
      .ok { st with err := keepFirst st.err (.invalidLine t.2) }
    else
      let line := digitsToNat t.2
      let le := detectLineEnding source
      let lines := jsSplit le source
      if h : 1 ≤ line ∧ line - 1 < lines.length then
        let rv := replaceIncGR inc st.version (lines.get ⟨line - 1, h.2⟩)
        if dryRun then
          .ok { st with version := rv.2 }
        else
          .ok { st with
            store := updateStore st.store t.1
              (joinSep le (lines.set (line - 1) rv.1)),
            version := rv.2 }
      else
        .error .typeError

/-- The whole increment step of src/git-release.js: forEach over the raw
configured targets; only a synchronous throw stops the loop. -/
def incrementAllGR (inc : List Char → List Char) (dryRun : Bool) :
    List (String × List Char) → GRSt → Except Err GRSt
  | [], st => .ok st
  | t :: rest, st =>
    match incrementOneGR inc dryRun st t with
    | .error e => .error e
    | .ok st2 => incrementAllGR inc dryRun rest st2

/-- The selected line of a raw target in a working tree, under the inline
checks of the git-release.js increment step: file present, digit token,
index inside the split sequence. -/
def targetLineGR (store : List (String × List Char))
    (t : String × List Char) : Option (List Char) :=
  match lookupStore store t.1 with
  | none => none
  | some source =>
    if lineTokenValid t.2 then
      let lines := jsSplit (detectLineEnding source) source
      if h : 1 ≤ digitsToNat t.2 ∧ digitsToNat t.2 - 1 < lines.length then
        some (lines.get ⟨digitsToNat t.2 - 1, h.2⟩)
      else none
    else none

/-- The first `reSemver` match on the selected line of a raw target. -/
def targetMatchGR (store : List (String × List Char))
    (t : String × List Char) : Option (List Char × List Char × List Char) :=
  match targetLineGR store t with
  | none => none
  | some line => firstMatchGR line

/-- The content a raw target's file holds after its selected line had its
first `reSemver` match replaced by the string `v`. -/
def patchedContentGR (store : List (String × List Char))
    (t : String × List Char) (v : List Char) : Option (List Char) :=
  match lookupStore store t.1 with
  | none => none
  | some source =>
    if lineTokenValid t.2 then
      let le := detectLineEnding source
      let lines := jsSplit le source
      if h : 1 ≤ digitsToNat t.2 ∧ digitsToNat t.2 - 1 < lines.length then
        match firstMatchGR (lines.get ⟨digitsToNat t.2 - 1, h.2⟩) with
        | none => none
        | some (pre, _, post) =>
          some (joinSep le (lines.set (digitsToNat t.2 - 1)
            (pre ++ v ++ post)))
      else none
    else none

/-- A spawn result of a process that ran and succeeded. -/
def okRes : SpawnRes := { error := false, status := 0, stderr := [] }

/-- A spawn result of a process that ran and exited with status one and a
message on stderr. -/
def failRes : SpawnRes :=
  { error := false, status := 1, stderr := ['f', 'a', 't', 'a', 'l'] }

/-- A world where every spawned process succeeds. -/
def worldOk : World :=
  { addRes := fun _ => okRes, testRes := okRes, commitRes := okRes,
    tagRes := okRes, pushRes := okRes, publishRes := okRes }

/-- A world where git add exits with a non-zero status, everything else
succeeds. -/
def worldAddFail : World := { worldOk with addRes := fun _ => failRes }

/-- A minimal configuration for a patch release with tests, push and
publish disabled. -/
def cfgBase (dry : Bool) : Config :=
  { type := ['p', 'a', 't', 'c', 'h'], dryRun := dry, test := false, push := false,
    publish := false, hasTestScript := false, remoteURL := [],
    npmHasVersion := false, npmPrivate := false, npmPublishConfig := false }

/-- A concrete external version-math collaborator for witnesses: every
input bumps to the same literal version. -/
def incConst : List Char → List Char := fun _ => ['9', '.', '9', '.', '9']

/-- Fixture file name. -/
def fileA : String := "a.txt"

/-- Fixture file name. -/
def fileB : String := "b.txt"

/-- The content of the first fixture file: one line with a version
literal. -/
def contentA : List Char := ['v', ' ', '1', '.', '2', '.', '3']

/-- A one-file tree whose single line holds a version literal. -/
def storeA : List (String × List Char) := [(fileA, contentA)]

/-- A two-file tree: a version literal in the first file, a single short
line without one in the second. -/
def storeAB : List (String × List Char) :=
  [(fileA, contentA), (fileB, ['x'])]

/-- A two-file tree with a version literal in each file. -/
def storeTwoVers : List (String × List Char) :=
  [(fileA, ['a', ' ', '1', '.', '0', '.', '0']),
    (fileB, ['b', ' ', '2', '.', '5', '.', '7', ' ', 'z'])]

/-- Raw configured targets: line one of the first fixture file. -/
def rawA : List (String × List Char) := [(fileA, ['1'])]

/-- Raw configured targets: line one of the first fixture file, then the
out-of-range line five of the second. -/
def rawABOver : List (String × List Char) := [(fileA, ['1']), (fileB, ['5'])]

/-- Raw configured targets: line one of each of the two fixture files. -/
def rawTwo : List (String × List Char) := [(fileA, ['1']), (fileB, ['1'])]

/-- Modelled from the spec: the external Version-Math collaborator (the
semver.inc of spec section 2, a pure function from a valid version and a
release type to the next version) for the patch release type, tabulated at
the version strings of the two-file fixture: the final numeric component
is incremented. -/
def incPatchFix : List Char → List Char := fun s =>
  if s = ['1', '.', '0', '.', '0'] then ['1', '.', '0', '.', '1']
  else if s = ['2', '.', '5', '.', '7'] then ['2', '.', '5', '.', '8']
  else s

/-- A configuration whose release type is not one of the seven keywords. -/
def cfgBadType : Config :=
  { cfgBase false with type := ['b', 'o', 'g', 'u', 's'] }

/-- A one-file tree whose single line holds no version literal. -/
def storeB : List (String × List Char) := [(fileB, ['x'])]

theorem splitNE_ne_nil (sep : List Char) : ∀ s, splitNE sep s ≠ [] := by
  intro s
  induction s using splitNE.induct sep with
  | case1 => simp [splitNE]
  | case2 c rest h ih => simp [splitNE, h]
  | case3 c rest h ih =>
    simp only [splitNE, if_neg h]
    cases hs : splitNE sep rest with
    | nil => exact absurd hs ih
    | cons p ps => simp

theorem joinSep_cons_cons (sep p q : List Char) (ps : List (List Char)) :
    joinSep sep (p :: q :: ps) = p ++ sep ++ joinSep sep (q :: ps) := by
  simp [joinSep]

theorem joinSep_modifyHead (sep : List Char) (c : Char) (L : List (List Char))
    (h : L ≠ []) :
    joinSep sep (L.modifyHead (fun p => c :: p)) = c :: joinSep sep L := by
  match L with
  | [p] => rfl
  | p :: q :: ps => simp [List.modifyHead, joinSep_cons_cons]

theorem joinSep_splitNE (sep : List Char) (hsep : sep ≠ []) :
    ∀ s, joinSep sep (splitNE sep s) = s := by
  intro s
  induction s using splitNE.induct sep with
  | case1 => simp [splitNE, joinSep]
  | case2 c rest h ih =>
    have hpre : sep <+: (c :: rest) := List.isPrefixOf_iff_prefix.mp h
    obtain ⟨t, ht⟩ := hpre
    have hdrop : rest.drop (sep.length - 1) = t := by
      obtain ⟨d, sep', rfl⟩ : ∃ d sep', sep = d :: sep' := by
        cases sep with
        | nil => exact absurd rfl hsep
        | cons d sep' => exact ⟨d, sep', rfl⟩
      have h1 : ((d :: sep') ++ t).drop (d :: sep').length = t := List.drop_left _ _
      rw [ht] at h1
      simpa using h1
    simp only [splitNE, if_pos h]
    cases hsplit : splitNE sep (rest.drop (sep.length - 1)) with
    | nil => exact absurd hsplit (splitNE_ne_nil sep _)
    | cons p ps =>
      rw [joinSep_cons_cons, ← hsplit, ih, hdrop]
      simpa using ht
  | case3 c rest h ih =>
    simp only [splitNE, if_neg h]
    rw [joinSep_modifyHead sep c _ (splitNE_ne_nil sep rest), ih]

theorem head_mem_of_isPrefixOf (sep : List Char) (c : Char) (t : List Char)
    (hsep : sep ≠ []) (h : sep.isPrefixOf (c :: t) = true) : c ∈ sep := by
  cases sep with
  | nil => exact absurd rfl hsep
  | cons d sep' =>
    simp only [List.isPrefixOf, Bool.and_eq_true, beq_iff_eq] at h
    rw [← h.1]
    exact List.mem_cons_self d sep'

theorem splitNE_of_no_sep_char (sep : List Char) (hsep : sep ≠ []) :
    ∀ s, (∀ c ∈ s, c ∉ sep) → splitNE sep s = [s] := by
  intro s
  induction s with
  | nil => intro _; simp [splitNE]
  | cons c rest ih =>
    intro hmem
    have hnp : ¬ sep.isPrefixOf (c :: rest) = true := by
      intro hp
      exact hmem c (List.mem_cons_self c rest) (head_mem_of_isPrefixOf sep c rest hsep hp)
    simp [splitNE, hnp, ih (fun x hx => hmem x (List.mem_cons_of_mem _ hx))]

theorem splitNE_append_no_sep_char (sep post : List Char) (hsep : sep ≠ []) :
    ∀ m : List Char, (∀ ch ∈ m, ch ∉ sep) →
      (splitNE sep (m ++ post)).length = (splitNE sep post).length := by
  intro m
  induction m with
  | nil => intro _; rfl
  | cons d m' ih =>
    intro hmem
    have hnp : ¬ sep.isPrefixOf (d :: (m' ++ post)) = true := by
      intro hp
      exact hmem d (List.mem_cons_self d m')
        (head_mem_of_isPrefixOf sep d _ hsep hp)
    have : (d :: m') ++ post = d :: (m' ++ post) := rfl
    rw [this]
    simp only [splitNE, if_neg hnp, List.length_modifyHead]
    exact ih (fun x hx => hmem x (List.mem_cons_of_mem _ hx))

theorem mem_of_isPrefixOf_long (sep : List Char) :
    ∀ (p : List Char) (d : Char) (t : List Char),
      sep.isPrefixOf (p ++ d :: t) = true → p.length < sep.length → d ∈ sep := by
  intro p
  induction p generalizing sep with
  | nil =>
    intro d t h hlen
    exact head_mem_of_isPrefixOf sep d t
      (by intro he; rw [he] at hlen; simp at hlen) h
  | cons c p' ih =>
    intro d t h hlen
    cases sep with
    | nil => simp at hlen
    | cons a sep' =>
      simp only [List.cons_append, List.isPrefixOf, Bool.and_eq_true,
        beq_iff_eq] at h
      have : d ∈ sep' := ih sep' d t h.2 (by simpa using Nat.lt_of_succ_lt_succ hlen)
      exact List.mem_cons_of_mem a this

theorem isPrefixOf_append_left (sep : List Char) :
    ∀ (p t : List Char), sep.isPrefixOf (p ++ t) = true →
      sep.length ≤ p.length → sep.isPrefixOf p = true := by
  induction sep with
  | nil => intro p t _ _; simp [List.isPrefixOf]
  | cons a sep' ih =>
    intro p t h hlen
    cases p with
    | nil => simp at hlen
    | cons b p' =>
      simp only [List.cons_append, List.isPrefixOf, Bool.and_eq_true,
        beq_iff_eq] at h ⊢
      exact ⟨h.1, ih p' t h.2 (by simpa using Nat.le_of_succ_le_succ hlen)⟩

theorem isPrefixOf_append_extend (sep p t : List Char)
    (h : sep.isPrefixOf p = true) : sep.isPrefixOf (p ++ t) = true := by
  rw [ List.isPrefixOf_iff_prefix] at h ⊢
  exact h.trans (List.prefix_append p t)

theorem splitNE_wall (sep m post : List Char) (hsep : sep ≠ []) (hm : m ≠ [])
    (hchars : ∀ ch ∈ m, ch ∉ sep) :
    ∀ pre : List Char,
      (splitNE sep (pre ++ (m ++ post))).length + 1
        = (splitNE sep pre).length + (splitNE sep post).length
  | [] => by
    simp only [List.nil_append]
    rw [splitNE_append_no_sep_char sep post hsep m hchars]
    simp [splitNE]
    omega
  | c :: pre' => by
    by_cases hp : sep.isPrefixOf (c :: (pre' ++ (m ++ post))) = true
    · have hfit : sep.length ≤ pre'.length + 1 := by
        by_contra hlt
        push_neg at hlt
        obtain ⟨d, m', rfl⟩ : ∃ d m', m = d :: m' := by
          cases m with
          | nil => exact absurd rfl hm
          | cons d m' => exact ⟨d, m', rfl⟩
        have hmem : d ∈ sep := by
          have hshape : c :: (pre' ++ (d :: m' ++ post)) =
              (c :: pre') ++ d :: (m' ++ post) := by simp
          rw [hshape] at hp
          exact mem_of_isPrefixOf_long sep (c :: pre') d (m' ++ post) hp
            (by simpa using hlt)
        exact hchars d (List.mem_cons_self d m') hmem
      have hp2 : sep.isPrefixOf (c :: pre') = true := by
        have hshape : c :: (pre' ++ (m ++ post)) = (c :: pre') ++ (m ++ post) := rfl
        rw [hshape] at hp
        exact isPrefixOf_append_left sep (c :: pre') (m ++ post) hp
          (by simpa using hfit)
      have hdropshape : (pre' ++ (m ++ post)).drop (sep.length - 1)
          = pre'.drop (sep.length - 1) ++ (m ++ post) := by
        rw [List.drop_append_of_le_length]
        omega
      have hrec := splitNE_wall sep m post hsep hm hchars (pre'.drop (sep.length - 1))
      simp only [List.cons_append, splitNE, if_pos hp, if_pos hp2,
        List.length_cons] at *
      rw [hdropshape]
      omega
    · have hp2 : ¬ sep.isPrefixOf (c :: pre') = true := by
        intro hpp
        exact hp (by
          have hshape : c :: (pre' ++ (m ++ post)) = (c :: pre') ++ (m ++ post) := rfl
          rw [hshape]
          exact isPrefixOf_append_extend sep (c :: pre') (m ++ post) hpp)
      have hrec := splitNE_wall sep m post hsep hm hchars pre'
      simp only [List.cons_append, splitNE, if_neg hp, if_neg hp2,
        List.length_modifyHead] at *
      omega
termination_by pre => pre.length
decreasing_by
  · simp only [List.length_drop, List.length_cons]
    omega
  · simp

theorem jsSplit_of_ne_nil (sep s : List Char) (hsep : sep ≠ []) :
    jsSplit sep s = splitNE sep s := by
  simp [jsSplit, hsep]

theorem jsSplit_length_pos (sep s : List Char) (hsep : sep ≠ []) :
    0 < (jsSplit sep s).length := by
  rw [jsSplit_of_ne_nil sep s hsep]
  exact List.length_pos.mpr (splitNE_ne_nil sep s)

theorem detect_eq_of_counts (s t : List Char)
    (h1 : (jsSplit ['\r', '\n'] s).length = (jsSplit ['\r', '\n'] t).length)
    (h2 : (jsSplit ['\r'] s).length = (jsSplit ['\r'] t).length)
    (h3 : (jsSplit ['\n'] s).length = (jsSplit ['\n'] t).length) :
    detectLineEnding s = detectLineEnding t := by
  unfold detectLineEnding
  rw [h1, h2, h3]

theorem detectLineEnding_cases (s : List Char) :
    detectLineEnding s = crffToken ∨ detectLineEnding s = ['\r'] ∨
      detectLineEnding s = ['\n'] := by
  have h1 : 0 < (jsSplit ['\r'] s).length := jsSplit_length_pos _ s (by simp)
  have h2 : 0 < (jsSplit ['\n'] s).length := jsSplit_length_pos _ s (by simp)
  unfold detectLineEnding
  dsimp only
  split_ifs with hz hu hc
  · omega
  · exact Or.inl rfl
  · exact Or.inr (Or.inl rfl)
  · exact Or.inr (Or.inr rfl)

theorem detectLineEnding_ne_nil (s : List Char) : detectLineEnding s ≠ [] := by
  rcases detectLineEnding_cases s with h | h | h <;> rw [h] <;> simp [crffToken]

theorem detectLineEnding_no_break (s : List Char)
    (h : ∀ c ∈ s, c ≠ '\r' ∧ c ≠ '\n') : detectLineEnding s = crffToken := by
  have hone : ∀ sep : List Char, sep ≠ [] → (∀ c ∈ s, c ∉ sep) →
      (jsSplit sep s).length = 1 := by
    intro sep hsep hmem
    rw [jsSplit_of_ne_nil sep s hsep, splitNE_of_no_sep_char sep hsep s hmem]
    rfl
  have h1 : (jsSplit ['\r', '\n'] s).length = 1 := by
    refine hone _ (by simp) (fun c hc => ?_)
    have := h c hc
    simp only [List.mem_cons, List.not_mem_nil]
    tauto
  have h2 : (jsSplit ['\r'] s).length = 1 := by
    refine hone _ (by simp) (fun c hc => ?_)
    have := h c hc
    simp only [List.mem_cons, List.not_mem_nil]
    tauto
  have h3 : (jsSplit ['\n'] s).length = 1 := by
    refine hone _ (by simp) (fun c hc => ?_)
    have := h c hc
    simp only [List.mem_cons, List.not_mem_nil]
    tauto
  unfold detectLineEnding
  dsimp only
  rw [h1, h2, h3]
  norm_num

theorem set_get_self {α : Type} (l : List α) (i : Nat) (h : i < l.length) :
    l.set i (l.get ⟨i, h⟩) = l := by
  induction l generalizing i with
  | nil => simp at h
  | cons a l ih =>
    cases i with
    | zero => simp
    | succ n =>
      have hn : n < l.length := by simpa using h
      have hh := ih n hn
      simp only [List.get_eq_getElem] at hh
      simp [hh]

theorem joinSep_set (sep : List Char) :
    ∀ (l : List (List Char)) (i : Nat), i < l.length →
      ∃ A B, (∀ x, joinSep sep (l.set i x) = A ++ x ++ B) ∧
        ∀ h : i < l.length, joinSep sep l = A ++ l.get ⟨i, h⟩ ++ B := by
  intro l
  induction l with
  | nil => intro i hi; simp at hi
  | cons p ps ih =>
    intro i hi
    cases i with
    | zero =>
      cases ps with
      | nil =>
        refine ⟨[], [], fun x => by simp [joinSep], fun h => by simp [joinSep]⟩
      | cons q ps' =>
        refine ⟨[], sep ++ joinSep sep (q :: ps'), fun x => ?_, fun h => ?_⟩
        · rw [List.set_cons_zero, joinSep_cons_cons]
          simp
        · rw [joinSep_cons_cons]
          simp
    | succ n =>
      have hn : n < ps.length := by simpa using hi
      obtain ⟨A, B, hset, hval⟩ := ih n hn
      cases ps with
      | nil => simp at hn
      | cons q ps' =>
        refine ⟨p ++ sep ++ A, B, fun x => ?_, fun h => ?_⟩
        · rw [List.set_cons_succ]
          have hcons : ∃ r rs, (q :: ps').set n x = r :: rs := by
            cases n with
            | zero => exact ⟨x, ps', by simp⟩
            | succ k => exact ⟨q, ps'.set k x, by simp⟩
          obtain ⟨r, rs, hrs⟩ := hcons
          rw [hrs, joinSep_cons_cons, ← hrs, hset x]
          simp
        · rw [joinSep_cons_cons, hval hn]
          simp

theorem matchNum_spec (s n r : List Char) (h : matchNum s = some (n, r)) :
    s = n ++ r ∧ n ≠ [] ∧ ∀ ch ∈ n, ch.isDigit = true := by
  cases s with
  | nil => simp [matchNum] at h
  | cons c rest =>
    by_cases h0 : c = '0'
    · simp only [matchNum, if_pos h0, Option.some.injEq, Prod.mk.injEq] at h
      obtain ⟨rfl, rfl⟩ := h
      refine ⟨by simp [h0], by simp, ?_⟩
      intro ch hch
      simp only [List.mem_singleton] at hch
      simp [hch]
    · by_cases hd : c.isDigit
      · simp only [matchNum, if_neg h0, if_pos hd, Option.some.injEq,
          Prod.mk.injEq] at h
        obtain ⟨rfl, rfl⟩ := h
        refine ⟨by simp [List.takeWhile_append_dropWhile], by simp, ?_⟩
        intro ch hch
        simp only [List.mem_cons] at hch
        rcases hch with rfl | hch
        · exact hd
        · exact List.mem_takeWhile_imp hch
      · simp [matchNum, h0, hd] at h

theorem matchMainAt_spec (s m r : List Char) (h : matchMainAt s = some (m, r)) :
    s = m ++ r ∧ m ≠ [] ∧ ∀ ch ∈ m, ch.isDigit = true ∨ ch = '.' := by
  unfold matchMainAt at h
  split at h
  next => simp at h
  next n1 r1 h1 =>
    split at h
    next r2 =>
      split at h
      next => simp at h
      next n2 r3 h2 =>
        split at h
        next r4 =>
          split at h
          next => simp at h
          next n3 r5 h3 =>
            simp only [Option.some.injEq, Prod.mk.injEq] at h
            obtain ⟨rfl, rfl⟩ := h
            obtain ⟨hs1, hn1ne, hn1d⟩ := matchNum_spec _ _ _ h1
            obtain ⟨hs2, hn2ne, hn2d⟩ := matchNum_spec _ _ _ h2
            obtain ⟨hs3, hn3ne, hn3d⟩ := matchNum_spec _ _ _ h3
            refine ⟨?_, by simp [hn1ne], ?_⟩
            · rw [hs1, hs2, hs3]
              simp
            · intro ch hch
              simp only [List.mem_append, List.mem_cons] at hch
              have hcases : ch ∈ n1 ∨ ch ∈ n2 ∨ ch ∈ n3 ∨ ch = '.' := by tauto
              rcases hcases with hch2 | hch2 | hch2 | rfl
              · exact Or.inl (hn1d ch hch2)
              · exact Or.inl (hn2d ch hch2)
              · exact Or.inl (hn3d ch hch2)
              · exact Or.inr rfl
        next hne => simp at h
    next hne => simp at h

theorem firstMatch_spec (line : List Char) :
    ∀ pre m post : List Char, firstMatch line = some (pre, m, post) →
      line = pre ++ m ++ post ∧ m ≠ [] ∧
        ∀ ch ∈ m, ch.isDigit = true ∨ ch = '.' := by
  induction line with
  | nil => intro pre m post h; simp [firstMatch] at h
  | cons c rest ih =>
    intro pre m post h
    unfold firstMatch at h
    split at h
    next m2 after hm =>
      simp only [Option.some.injEq, Prod.mk.injEq] at h
      obtain ⟨rfl, rfl, rfl⟩ := h
      obtain ⟨hs, hne, hd⟩ := matchMainAt_spec _ _ _ hm
      exact ⟨by simpa using hs, hne, hd⟩
    next hm =>
      split at h
      next pre2 m2 after hf =>
        simp only [Option.some.injEq, Prod.mk.injEq] at h
        obtain ⟨rfl, rfl, rfl⟩ := h
        obtain ⟨hs, hne, hd⟩ := ih _ _ _ hf
        refine ⟨?_, hne, hd⟩
        rw [List.cons_append, List.cons_append, ← hs]
      next => simp at h

theorem match_chars_not_break (m : List Char)
    (hd : ∀ ch ∈ m, ch.isDigit = true ∨ ch = '.') :
    ∀ ch ∈ m, ch ≠ '\r' ∧ ch ≠ '\n' ∧ ch ≠ '\x0C' := by
  intro ch hch
  rcases hd ch hch with hdig | rfl
  · refine ⟨?_, ?_, ?_⟩ <;> intro he <;> rw [he] at hdig <;> simp at hdig
  · refine ⟨by decide, by decide, by decide⟩

theorem replaceInc_no_match (inc : List Char → List Char) (v line : List Char)
    (h : firstMatch line = none) : replaceInc inc v line = (line, v) := by
  simp [replaceInc, h]

theorem replaceInc_match_unset (inc : List Char → List Char)
    (line pre m post : List Char) (h : firstMatch line = some (pre, m, post)) :
    replaceInc inc [] line = (pre ++ inc m ++ post, inc m) := by
  simp [replaceInc, h]

theorem replaceInc_match_set (inc : List Char → List Char)
    (v line pre m post : List Char) (hv : v ≠ [])
    (h : firstMatch line = some (pre, m, post)) :
    replaceInc inc v line = (pre ++ v ++ post, v) := by
  simp [replaceInc, h, hv]

theorem replaceInc_version_kept (inc : List Char → List Char)
    (v line : List Char) (hv : v ≠ []) :
    (replaceInc inc v line).2 = v := by
  unfold replaceInc
  split
  · rfl
  · simp [hv]

theorem lookupStore_update_self (store : List (String × List Char))
    (f : String) (c : List Char) :
    lookupStore (updateStore store f c) f = some c := by
  induction store with
  | nil => simp [updateStore, lookupStore]
  | cons p rest ih =>
    obtain ⟨g, c0⟩ := p
    by_cases hg : g = f
    · simp [updateStore, lookupStore, hg]
    · simp [updateStore, lookupStore, hg, ih]

theorem lookupStore_update_ne (store : List (String × List Char))
    (f g : String) (c : List Char) (h : f ≠ g) :
    lookupStore (updateStore store f c) g = lookupStore store g := by
  induction store with
  | nil => simp [updateStore, lookupStore, h]
  | cons p rest ih =>
    obtain ⟨g0, c0⟩ := p
    by_cases hg : g0 = f
    · subst hg
      simp [updateStore, lookupStore, h]
    · simp [updateStore, lookupStore, hg, ih]

theorem lookupStore_update_same (store : List (String × List Char))
    (f : String) (c : List Char) (h : lookupStore store f = some c) :
    ∀ g, lookupStore (updateStore store f c) g = lookupStore store g := by
  intro g
  by_cases hg : f = g
  · subst hg
    rw [lookupStore_update_self, h]
  · exact lookupStore_update_ne store f g c hg

theorem incrementOne_missing (inc : List Char → List Char) (dryRun : Bool)
    (w : World) (st : RunSt) (f : String) (line : Nat)
    (hlook : lookupStore st.store f = none) :
    incrementOne inc dryRun w st (f, line) =
      { st with err := some (.fileNotFound f) } := by
  unfold incrementOne
  simp only [hlook]

theorem incrementOne_oob (inc : List Char → List Char) (dryRun : Bool)
    (w : World) (st : RunSt) (f : String) (line : Nat) (source : List Char)
    (hlook : lookupStore st.store f = some source)
    (h : ¬ (1 ≤ line ∧ line - 1 <
      (jsSplit (detectLineEnding source) source).length)) :
    incrementOne inc dryRun w st (f, line) =
      { st with err := some .typeError } := by
  unfold incrementOne
  simp only [hlook]
  rw [dif_neg h]

theorem incrementOne_dry (inc : List Char → List Char) (w : World)
    (st : RunSt) (f : String) (line : Nat) (source : List Char)
    (hlook : lookupStore st.store f = some source)
    (h : 1 ≤ line ∧ line - 1 <
      (jsSplit (detectLineEnding source) source).length) :
    incrementOne inc true w st (f, line) =
      { st with version := (replaceInc inc st.version
        ((jsSplit (detectLineEnding source) source).get
          ⟨line - 1, h.2⟩)).2 } := by
  unfold incrementOne
  simp only [hlook]
  rw [dif_pos h]
  simp

theorem incrementOne_wet (inc : List Char → List Char) (w : World)
    (st : RunSt) (f : String) (line : Nat) (source : List Char)
    (hlook : lookupStore st.store f = some source)
    (h : 1 ≤ line ∧ line - 1 <
      (jsSplit (detectLineEnding source) source).length) :
    incrementOne inc false w st (f, line) =
      (let le := detectLineEnding source
       let lines := jsSplit le source
       let rv := replaceInc inc st.version (lines.get ⟨line - 1, h.2⟩)
       let newContent := joinSep le (lines.set (line - 1) rv.1)
       let st1 : RunSt :=
         { store := updateStore st.store f newContent, version := rv.2,
           effects := st.effects ++ [.writeFile f newContent, .gitAdd f],
           err := st.err }
       if (w.addRes f).error then { st1 with err := some .spawnError }
       else st1) := by
  unfold incrementOne
  simp only [hlook]
  rw [dif_pos h]
  simp

theorem joinSep_jsSplit_detect (source : List Char) :
    joinSep (detectLineEnding source)
      (jsSplit (detectLineEnding source) source) = source := by
  have hne := detectLineEnding_ne_nil source
  rw [jsSplit_of_ne_nil _ _ hne]
  exact joinSep_splitNE _ hne source

theorem count_eq_subst (sep : List Char) (hsep : sep ≠ [])
    (P Q m v : List Char) (hm : m ≠ []) (hv : v ≠ [])
    (hmch : ∀ ch ∈ m, ch ∉ sep) (hvch : ∀ ch ∈ v, ch ∉ sep) :
    (splitNE sep (P ++ m ++ Q)).length = (splitNE sep (P ++ v ++ Q)).length := by
  have h1 := splitNE_wall sep m Q hsep hm hmch P
  have h2 := splitNE_wall sep v Q hsep hv hvch P
  rw [List.append_assoc]
  rw [List.append_assoc]
  omega

theorem detect_subst (P Q m v : List Char) (hm : m ≠ []) (hv : v ≠ [])
    (hmch : ∀ ch ∈ m, ch ≠ '\r' ∧ ch ≠ '\n')
    (hvch : ∀ ch ∈ v, ch ≠ '\r' ∧ ch ≠ '\n') :
    detectLineEnding (P ++ v ++ Q) = detectLineEnding (P ++ m ++ Q) := by
  apply detect_eq_of_counts
  all_goals
    rw [jsSplit_of_ne_nil _ _ (by simp), jsSplit_of_ne_nil _ _ (by simp)]
  all_goals
    refine (count_eq_subst _ (by simp) P Q m v hm hv ?_ ?_).symm <;>
      intro ch hch <;> simp only [List.mem_cons, List.not_mem_nil, or_false]
  · have := hmch ch hch
    tauto
  · have := hvch ch hch
    tauto
  · have := hmch ch hch
    tauto
  · have := hvch ch hch
    tauto
  · have := hmch ch hch
    tauto
  · have := hvch ch hch
    tauto

theorem incrementAll_nil (inc : List Char → List Char) (dry : Bool) (w : World)
    (st : RunSt) : incrementAll inc dry w [] st = st := rfl

theorem incrementAll_cons (inc : List Char → List Char) (dry : Bool) (w : World)
    (t : String × Nat) (ts : List (String × Nat)) (st : RunSt) :
    incrementAll inc dry w (t :: ts) st =
      incrementAll inc dry w ts
        (if st.err.isSome then st else incrementOne inc dry w st t) := rfl

theorem incrementAll_err_stable (inc : List Char → List Char) (dry : Bool)
    (w : World) : ∀ (ts : List (String × Nat)) (st : RunSt),
      st.err.isSome → incrementAll inc dry w ts st = st := by
  intro ts
  induction ts with
  | nil => intro st _; rfl
  | cons t ts ih =>
    intro st h
    rw [incrementAll_cons, if_pos h]
    exact ih st h

theorem incrementOne_version_kept (inc : List Char → List Char) (dry : Bool)
    (w : World) (st : RunSt) (t : String × Nat) (hv : st.version ≠ []) :
    (incrementOne inc dry w st t).version = st.version := by
  obtain ⟨f, line⟩ := t
  cases hl : lookupStore st.store f with
  | none => rw [incrementOne_missing inc dry w st f line hl]
  | some source =>
    by_cases h : 1 ≤ line ∧ line - 1 <
        (jsSplit (detectLineEnding source) source).length
    · cases dry with
      | true =>
        rw [incrementOne_dry inc w st f line source hl h]
        simp [replaceInc_version_kept inc _ _ hv]
      | false =>
        rw [incrementOne_wet inc w st f line source hl h]
        dsimp only
        split <;> simp [replaceInc_version_kept inc _ _ hv]
    · rw [incrementOne_oob inc dry w st f line source hl h]

theorem incrementAll_version_kept (inc : List Char → List Char) (dry : Bool)
    (w : World) : ∀ (ts : List (String × Nat)) (st : RunSt),
      st.version ≠ [] → (incrementAll inc dry w ts st).version = st.version := by
  intro ts
  induction ts with
  | nil => intro st _; rfl
  | cons t ts ih =>
    intro st hv
    rw [incrementAll_cons]
    by_cases he : st.err.isSome
    · rw [if_pos he]
      exact ih st hv
    · rw [if_neg he]
      rw [ih _ (by rw [incrementOne_version_kept inc dry w st t hv]; exact hv)]
      exact incrementOne_version_kept inc dry w st t hv

theorem incrementOne_dry_frame (inc : List Char → List Char) (w : World)
    (st : RunSt) (t : String × Nat) :
    (incrementOne inc true w st t).store = st.store ∧
      (incrementOne inc true w st t).effects = st.effects := by
  obtain ⟨f, line⟩ := t
  cases hl : lookupStore st.store f with
  | none => rw [incrementOne_missing inc true w st f line hl]; exact ⟨rfl, rfl⟩
  | some source =>
    by_cases h : 1 ≤ line ∧ line - 1 <
        (jsSplit (detectLineEnding source) source).length
    · rw [incrementOne_dry inc w st f line source hl h]
      exact ⟨rfl, rfl⟩
    · rw [incrementOne_oob inc true w st f line source hl h]
      exact ⟨rfl, rfl⟩

theorem incrementAll_dry_frame (inc : List Char → List Char) (w : World) :
    ∀ (ts : List (String × Nat)) (st : RunSt),
      (incrementAll inc true w ts st).store = st.store ∧
        (incrementAll inc true w ts st).effects = st.effects := by
  intro ts
  induction ts with
  | nil => intro st; exact ⟨rfl, rfl⟩
  | cons t ts ih =>
    intro st
    rw [incrementAll_cons]
    by_cases he : st.err.isSome
    · rw [if_pos he]
      exact ih st
    · rw [if_neg he]
      obtain ⟨h1, h2⟩ := ih (incrementOne inc true w st t)
      obtain ⟨h3, h4⟩ := incrementOne_dry_frame inc w st t
      exact ⟨h1.trans h3, h2.trans h4⟩

theorem incrementOne_effects_shape (P : Eff → Bool)
    (hw : ∀ f c, P (Eff.writeFile f c) = false)
    (hg : ∀ f, P (Eff.gitAdd f) = false)
    (inc : List Char → List Char) (dry : Bool)
    (w : World) (st : RunSt) (t : String × Nat) :
    ∀ e ∈ (incrementOne inc dry w st t).effects,
      e ∈ st.effects ∨ P e = false := by
  obtain ⟨f, line⟩ := t
  cases hl : lookupStore st.store f with
  | none =>
    rw [incrementOne_missing inc dry w st f line hl]
    intro e he
    exact Or.inl he
  | some source =>
    by_cases h : 1 ≤ line ∧ line - 1 <
        (jsSplit (detectLineEnding source) source).length
    · cases dry with
      | true =>
        rw [incrementOne_dry inc w st f line source hl h]
        intro e he
        exact Or.inl he
      | false =>
        rw [incrementOne_wet inc w st f line source hl h]
        dsimp only
        split <;>
          · intro e he
            simp only [List.mem_append, List.mem_cons, List.not_mem_nil,
              or_false] at he
            rcases he with he | he | he
            · exact Or.inl he
            · subst he; exact Or.inr (hw _ _)
            · subst he; exact Or.inr (hg _)
    · rw [incrementOne_oob inc dry w st f line source hl h]
      intro e he
      exact Or.inl he

theorem incrementAll_effects_shape (P : Eff → Bool)
    (hw : ∀ f c, P (Eff.writeFile f c) = false)
    (hg : ∀ f, P (Eff.gitAdd f) = false)
    (inc : List Char → List Char) (dry : Bool)
    (w : World) : ∀ (ts : List (String × Nat)) (st : RunSt),
      ∀ e ∈ (incrementAll inc dry w ts st).effects,
        e ∈ st.effects ∨ P e = false := by
  intro ts
  induction ts with
  | nil => intro st e he; exact Or.inl he
  | cons t ts ih =>
    intro st e he
    rw [incrementAll_cons] at he
    by_cases hs : st.err.isSome
    · rw [if_pos hs] at he
      exact ih st e he
    · rw [if_neg hs] at he
      rcases ih _ e he with hmem | hpost
      · exact incrementOne_effects_shape P hw hg inc dry w st t e hmem
      · exact Or.inr hpost

theorem targetMatch_inv (store₀ : List (String × List Char)) (t : String × Nat)
    (h : (targetMatch store₀ t).isSome) :
    ∃ source pre m post,
      lookupStore store₀ t.1 = some source ∧
      targetMatch store₀ t = some (pre, m, post) ∧
      ∃ hsl : 1 ≤ t.2 ∧ t.2 - 1 <
          (jsSplit (detectLineEnding source) source).length,
        firstMatch ((jsSplit (detectLineEnding source) source).get
          ⟨t.2 - 1, hsl.2⟩) = some (pre, m, post) ∧
        ∀ vv, patchedContent store₀ t vv =
          some (joinSep (detectLineEnding source)
            ((jsSplit (detectLineEnding source) source).set (t.2 - 1)
              (pre ++ vv ++ post))) := by
  unfold targetMatch at h
  split at h
  next hnone => simp at h
  next line hline =>
    unfold targetLine at hline
    split at hline
    next => simp at hline
    next source heq =>
      dsimp only at hline
      split at hline
      next hsl =>
        simp only [Option.some.injEq] at hline
        rw [Option.isSome_iff_exists] at h
        obtain ⟨⟨pre, m, post⟩, hm⟩ := h
        refine ⟨source, pre, m, post, heq, ?_, hsl, ?_, ?_⟩
        · unfold targetMatch targetLine
          rw [heq]
          dsimp only
          rw [dif_pos hsl]
          dsimp only
          rw [hline]
          exact hm
        · rw [hline]
          exact hm
        · intro vv
          unfold patchedContent
          rw [heq]
          dsimp only
          rw [dif_pos hsl]
          rw [hline, hm]
      next => simp at hline

theorem incrementAll_reuse (inc : List Char → List Char) (w : World)
    (store₀ : List (String × List Char)) (v : List Char) (hv : v ≠ [])
    (hadd : ∀ f, (w.addRes f).error = false) :
    ∀ (ts : List (String × Nat)) (st : RunSt),
      st.err = none → st.version = v →
      (∀ t ∈ ts, lookupStore st.store t.1 = lookupStore store₀ t.1) →
      (∀ t ∈ ts, (targetMatch store₀ t).isSome) →
      (ts.map Prod.fst).Nodup →
      (incrementAll inc false w ts st).err = none ∧
      (incrementAll inc false w ts st).version = v ∧
      (∀ t ∈ ts, lookupStore (incrementAll inc false w ts st).store t.1
        = patchedContent store₀ t v) ∧
      (∀ f, f ∉ ts.map Prod.fst →
        lookupStore (incrementAll inc false w ts st).store f
          = lookupStore st.store f) := by
  intro ts
  induction ts with
  | nil =>
    intro st herr hver _ _ _
    rw [incrementAll_nil]
    exact ⟨herr, hver, by simp, fun f _ => rfl⟩
  | cons t ts ih =>
    intro st herr hver hlook hmatch hnodup
    obtain ⟨f0, line0⟩ := t
    obtain ⟨source, pre, m, post, hl0, htm, hsl, hm, hpatch⟩ :=
      targetMatch_inv store₀ (f0, line0) (hmatch _ (List.mem_cons_self _ _))
    have hlst : lookupStore st.store f0 = some source := by
      rw [hlook _ (List.mem_cons_self _ _)]
      exact hl0
    rw [incrementAll_cons, if_neg (by simp [herr])]
    rw [incrementOne_wet inc w st f0 line0 source hlst hsl]
    dsimp only
    rw [if_neg (by simp [hadd f0])]
    rw [hver, replaceInc_match_set inc v _ pre m post hv hm]
    have hf0notin : f0 ∉ ts.map Prod.fst := by
      simp only [List.map_cons, List.nodup_cons] at hnodup
      exact hnodup.1
    obtain ⟨fe, fv, fp, ff⟩ := ih
      { store := updateStore st.store f0 (joinSep (detectLineEnding source)
          ((jsSplit (detectLineEnding source) source).set (line0 - 1)
            ((pre ++ v ++ post, v).1))),
        version := (pre ++ v ++ post, v).2,
        effects := st.effects ++ [.writeFile f0 (joinSep (detectLineEnding source)
          ((jsSplit (detectLineEnding source) source).set (line0 - 1)
            ((pre ++ v ++ post, v).1))), .gitAdd f0],
        err := st.err }
      herr rfl
      (by
        intro t2 ht2
        have hne : t2.1 ≠ f0 := by
          intro he
          exact hf0notin (he ▸ List.mem_map_of_mem Prod.fst ht2)
        dsimp only
        rw [lookupStore_update_ne st.store f0 t2.1 _ (fun he => hne he.symm)]
        exact hlook t2 (List.mem_cons_of_mem _ ht2))
      (fun t2 ht2 => hmatch t2 (List.mem_cons_of_mem _ ht2))
      (by
        simp only [List.map_cons, List.nodup_cons] at hnodup
        exact hnodup.2)
    refine ⟨fe, fv, ?_, ?_⟩
    · intro t2 ht2
      rcases List.mem_cons.mp ht2 with rfl | ht2
      · rw [ff f0 hf0notin]
        dsimp only
        rw [lookupStore_update_self, hpatch v]
      · exact fp t2 ht2
    · intro f hf
      simp only [List.map_cons, List.mem_cons] at hf
      push_neg at hf
      rw [ff f hf.2]
      dsimp only
      rw [lookupStore_update_ne st.store f0 f _ (fun he => hf.1 he.symm)]

theorem incrementAll_dry_wet_version (inc : List Char → List Char) (w : World)
    (hinc : ∀ s, inc s ≠ []) (hadd : ∀ f, (w.addRes f).error = false) :
    ∀ (ts : List (String × Nat)) (stD stW : RunSt),
      stD.version = stW.version →
      (stD.version = [] → stD.err = stW.err ∧
        ∀ f, lookupStore stD.store f = lookupStore stW.store f) →
      (incrementAll inc true w ts stD).version
        = (incrementAll inc false w ts stW).version := by
  intro ts
  induction ts with
  | nil =>
    intro stD stW hv _
    exact hv
  | cons t ts ih =>
    intro stD stW hv hrel
    by_cases hnil : stD.version = []
    case neg =>
      rw [incrementAll_version_kept inc true w _ _ hnil,
        incrementAll_version_kept inc false w _ _ (fun he => hnil (hv.trans he))]
      exact hv
    case pos =>
      obtain ⟨herr, hst⟩ := hrel hnil
      cases he : stD.err with
      | some e =>
        rw [incrementAll_err_stable inc true w _ stD (by simp [he]),
          incrementAll_err_stable inc false w _ stW
            (by simp [← herr, he])]
        exact hv
      | none =>
        have heW : stW.err = none := herr ▸ he
        obtain ⟨f0, line0⟩ := t
        rw [incrementAll_cons, incrementAll_cons,
          if_neg (by simp [he]), if_neg (by simp [heW])]
        cases hl : lookupStore stD.store f0 with
        | none =>
          have hlW : lookupStore stW.store f0 = none := (hst f0) ▸ hl
          rw [incrementOne_missing inc true w stD f0 line0 hl,
            incrementOne_missing inc false w stW f0 line0 hlW]
          refine ih _ _ hv (fun _ => ⟨rfl, hst⟩)
        | some source =>
          have hlW : lookupStore stW.store f0 = some source := (hst f0) ▸ hl
          by_cases hcond : 1 ≤ line0 ∧ line0 - 1 <
              (jsSplit (detectLineEnding source) source).length
          · rw [incrementOne_dry inc w stD f0 line0 source hl hcond,
              incrementOne_wet inc w stW f0 line0 source hlW hcond]
            dsimp only
            rw [if_neg (by simp [hadd f0])]
            rw [hnil, ← hv, hnil]
            cases hfm : firstMatch ((jsSplit (detectLineEnding source)
                source).get ⟨line0 - 1, hcond.2⟩) with
            | none =>
              rw [replaceInc_no_match inc [] _ hfm]
              have hsrc : joinSep (detectLineEnding source)
                  ((jsSplit (detectLineEnding source) source).set (line0 - 1)
                    ((jsSplit (detectLineEnding source) source).get
                      ⟨line0 - 1, hcond.2⟩)) = source := by
                rw [set_get_self, joinSep_jsSplit_detect]
              refine ih _ _ rfl (fun _ => ⟨by dsimp only; exact herr, fun f => ?_⟩)
              dsimp only
              rw [hsrc, lookupStore_update_same stW.store f0 source hlW f]
              exact hst f
            | some pm =>
              obtain ⟨pre, m, post⟩ := pm
              rw [replaceInc_match_unset inc _ pre m post hfm]
              rw [incrementAll_version_kept inc true w ts _ (by
                dsimp only
                exact hinc m)]
              rw [incrementAll_version_kept inc false w ts _ (by
                dsimp only
                exact hinc m)]
          · rw [incrementOne_oob inc true w stD f0 line0 source hl hcond,
              incrementOne_oob inc false w stW f0 line0 source hlW hcond]
            refine ih _ _ hv (fun _ => ⟨rfl, hst⟩)

theorem inspectStep_ok (type : List Char) (st : RunSt)
    (h : isReleaseType type = true) : inspectStep type st = st := by
  simp [inspectStep, h]

theorem inspectStep_bad (type : List Char) (st : RunSt) (herr : st.err = none)
    (h : isReleaseType type = false) :
    inspectStep type st = { st with err := some (.badType type) } := by
  unfold inspectStep
  rw [if_neg (by simp [herr]), if_neg (by simp [h])]

theorem testStep_dry (cfg : Config) (w : World) (st : RunSt)
    (h : cfg.dryRun = true) : testStep cfg w st = st := by
  simp [testStep, h]

theorem testStep_noerror (cfg : Config) (w : World) (st : RunSt)
    (h : w.testRes.error = false) : testStep cfg w st = st := by
  simp [testStep, h]

theorem commitStep_dry (w : World) (st : RunSt) : commitStep true w st = st := by
  simp [commitStep]

theorem tagStep_dry (w : World) (st : RunSt) : tagStep true w st = st := by
  simp [tagStep]

theorem pushStep_dry (cfg : Config) (w : World) (st : RunSt)
    (h : cfg.dryRun = true) : pushStep cfg w st = st := by
  simp [pushStep, h]

theorem publishStep_dry (cfg : Config) (w : World) (st : RunSt)
    (h : cfg.dryRun = true) : publishStep cfg w st = st := by
  simp [publishStep, h]

theorem commitStep_err (dry : Bool) (w : World) (st : RunSt)
    (h : st.err.isSome) : commitStep dry w st = st := by
  unfold commitStep
  rw [if_pos h]

theorem tagStep_err (dry : Bool) (w : World) (st : RunSt)
    (h : st.err.isSome) : tagStep dry w st = st := by
  unfold tagStep
  rw [if_pos h]

theorem pushStep_err (cfg : Config) (w : World) (st : RunSt)
    (h : st.err.isSome) : pushStep cfg w st = st := by
  unfold pushStep
  rw [if_pos h]

theorem publishStep_err (cfg : Config) (w : World) (st : RunSt)
    (h : st.err.isSome) : publishStep cfg w st = st := by
  unfold publishStep
  rw [if_pos h]

theorem testStep_err (cfg : Config) (w : World) (st : RunSt)
    (h : st.err.isSome) : testStep cfg w st = st := by
  unfold testStep
  rw [if_pos h]

theorem inspectStep_err (type : List Char) (st : RunSt)
    (h : st.err.isSome) : inspectStep type st = st := by
  unfold inspectStep
  rw [if_pos h]

theorem validateStep_err (raw : List (String × List Char)) (st : RunSt)
    (h : st.err.isSome) : validateStep raw st = (st, []) := by
  unfold validateStep
  rw [if_pos h]

theorem validateStep_of_ok (raw : List (String × List Char)) (st : RunSt)
    (ts : List (String × Nat)) (herr : st.err = none)
    (h : validateTargets st.store raw = .ok ts) :
    validateStep raw st = (st, ts) := by
  unfold validateStep
  rw [if_neg (by simp [herr]), h]

theorem validateStep_of_error (raw : List (String × List Char)) (st : RunSt)
    (e : Err) (herr : st.err = none)
    (h : validateTargets st.store raw = .error e) :
    validateStep raw st = ({ st with err := some e }, []) := by
  unfold validateStep
  rw [if_neg (by simp [herr]), h]

theorem commitStep_failure (w : World) (st : RunSt) (herr : st.err = none)
    (hc1 : w.commitRes.error = false) (hc2 : w.commitRes.status ≠ 0)
    (hc3 : w.commitRes.stderr ≠ []) :
    commitStep false w st =
      { st with
        effects := st.effects ++ [Eff.gitCommit st.version],
        err := some (Err.cmdFailed w.commitRes.stderr) } := by
  unfold commitStep
  rw [if_neg (by simp [herr]), if_neg (by simp), if_neg (by simp [hc1]),
    if_pos ⟨hc2, hc3⟩]

theorem tagStep_failure (w : World) (st : RunSt) (herr : st.err = none)
    (hc1 : w.tagRes.error = false) (hc2 : w.tagRes.status ≠ 0)
    (hc3 : w.tagRes.stderr ≠ []) :
    tagStep false w st =
      { st with
        effects := st.effects ++ [Eff.gitTag st.version],
        err := some (Err.cmdFailed w.tagRes.stderr) } := by
  unfold tagStep
  rw [if_neg (by simp [herr]), if_neg (by simp), if_neg (by simp [hc1]),
    if_pos ⟨hc2, hc3⟩]

theorem pushStep_failure (cfg : Config) (w : World) (st : RunSt)
    (herr : st.err = none) (hdry : cfg.dryRun = false)
    (hpush : cfg.push = true)
    (hrem : remoteOrNA cfg.remoteURL ≠ ['N', '/', 'A'])
    (hc1 : w.pushRes.error = false) (hc2 : w.pushRes.status ≠ 0)
    (hc3 : w.pushRes.stderr ≠ []) :
    pushStep cfg w st =
      { st with
        effects := st.effects ++ [Eff.gitPush st.version],
        err := some (Err.cmdFailed w.pushRes.stderr) } := by
  unfold pushStep
  rw [if_neg (by simp [herr]), if_neg (by simp [hpush]), if_neg hrem,
    if_neg (by simp [hdry]), if_neg (by simp [hc1]), if_pos ⟨hc2, hc3⟩]

theorem commitStep_status_without_stderr (w : World) (st : RunSt)
    (he : w.commitRes.error = false)
    (h : w.commitRes.status = 0 ∨ w.commitRes.stderr = []) :
    (commitStep false w st).err = st.err := by
  unfold commitStep
  split_ifs with h1 h2 h3 h4
  · rfl
  · exact h2.elim
  · rw [he] at h3; exact absurd h3 (by simp)
  · rcases h with h | h
    · exact absurd h h4.1
    · exact absurd h h4.2
  · rfl

theorem tagStep_status_without_stderr (w : World) (st : RunSt)
    (he : w.tagRes.error = false)
    (h : w.tagRes.status = 0 ∨ w.tagRes.stderr = []) :
    (tagStep false w st).err = st.err := by
  unfold tagStep
  split_ifs with h1 h2 h3 h4
  · rfl
  · exact h2.elim
  · rw [he] at h3; exact absurd h3 (by simp)
  · rcases h with h | h
    · exact absurd h h4.1
    · exact absurd h h4.2
  · rfl

theorem pushStep_status_without_stderr (cfg : Config) (w : World) (st : RunSt)
    (he : w.pushRes.error = false)
    (h : w.pushRes.status = 0 ∨ w.pushRes.stderr = []) :
    (pushStep cfg w st).err = st.err := by
  unfold pushStep
  split_ifs with h1 h2 h3 h4 h5 h6
  · rfl
  · rfl
  · rfl
  · rfl
  · rw [he] at h5; exact absurd h5 (by simp)
  · rcases h with h | h
    · exact absurd h h6.1
    · exact absurd h h6.2
  · rfl

theorem commitStep_effects_cases (dry : Bool) (w : World) (st : RunSt) :
    (commitStep dry w st).effects = st.effects ∨
      (commitStep dry w st).effects
        = st.effects ++ [Eff.gitCommit st.version] := by
  unfold commitStep
  split_ifs <;> first | exact Or.inl rfl | exact Or.inr rfl

theorem tagStep_effects_cases (dry : Bool) (w : World) (st : RunSt) :
    (tagStep dry w st).effects = st.effects ∨
      (tagStep dry w st).effects = st.effects ++ [Eff.gitTag st.version] := by
  unfold tagStep
  split_ifs <;> first | exact Or.inl rfl | exact Or.inr rfl

theorem pushStep_effects_cases (cfg : Config) (w : World) (st : RunSt) :
    (pushStep cfg w st).effects = st.effects ∨
      (pushStep cfg w st).effects
        = st.effects ++ [Eff.gitPush st.version] := by
  unfold pushStep
  split_ifs <;> first | exact Or.inl rfl | exact Or.inr rfl

theorem publishStep_effects_cases (cfg : Config) (w : World) (st : RunSt) :
    (publishStep cfg w st).effects = st.effects ∨
      (publishStep cfg w st).effects = st.effects ++ [Eff.npmPublish] := by
  unfold publishStep
  split_ifs <;> first | exact Or.inl rfl | exact Or.inr rfl

theorem incrementOne_world_congr (inc : List Char → List Char) (dry : Bool)
    (w w' : World) (st : RunSt) (t : String × Nat)
    (h : ∀ f, (w'.addRes f).error = (w.addRes f).error) :
    incrementOne inc dry w' st t = incrementOne inc dry w st t := by
  obtain ⟨f, line⟩ := t
  cases hl : lookupStore st.store f with
  | none =>
    rw [incrementOne_missing inc dry w' st f line hl,
      incrementOne_missing inc dry w st f line hl]
  | some source =>
    by_cases hcond : 1 ≤ line ∧ line - 1 <
        (jsSplit (detectLineEnding source) source).length
    · cases dry with
      | true =>
        rw [incrementOne_dry inc w' st f line source hl hcond,
          incrementOne_dry inc w st f line source hl hcond]
      | false =>
        rw [incrementOne_wet inc w' st f line source hl hcond,
          incrementOne_wet inc w st f line source hl hcond]
        dsimp only
        rw [h f]
    · rw [incrementOne_oob inc dry w' st f line source hl hcond,
        incrementOne_oob inc dry w st f line source hl hcond]

theorem incrementAll_world_congr (inc : List Char → List Char) (dry : Bool)
    (w w' : World)
    (h : ∀ f, (w'.addRes f).error = (w.addRes f).error) :
    ∀ (ts : List (String × Nat)) (st : RunSt),
      incrementAll inc dry w' ts st = incrementAll inc dry w ts st := by
  intro ts
  induction ts with
  | nil => intro st; rfl
  | cons t ts ih =>
    intro st
    rw [incrementAll_cons, incrementAll_cons]
    by_cases hs : st.err.isSome
    · rw [if_pos hs, if_pos hs]
      exact ih st
    · rw [if_neg hs, if_neg hs, incrementOne_world_congr inc dry w w' st t h]
      exact ih _

theorem testStep_world_congr (cfg : Config) (w w' : World) (st : RunSt)
    (h : w'.testRes = w.testRes) : testStep cfg w' st = testStep cfg w st := by
  unfold testStep
  rw [h]

theorem commitStep_world_congr (dry : Bool) (w w' : World) (st : RunSt)
    (h : w'.commitRes = w.commitRes) :
    commitStep dry w' st = commitStep dry w st := by
  unfold commitStep
  rw [h]

theorem tagStep_world_congr (dry : Bool) (w w' : World) (st : RunSt)
    (h : w'.tagRes = w.tagRes) : tagStep dry w' st = tagStep dry w st := by
  unfold tagStep
  rw [h]

theorem pushStep_world_congr (cfg : Config) (w w' : World) (st : RunSt)
    (h : w'.pushRes = w.pushRes) : pushStep cfg w' st = pushStep cfg w st := by
  unfold pushStep
  rw [h]

theorem publishStep_world_congr (cfg : Config) (w w' : World) (st : RunSt)
    (h : (w'.publishRes).error = (w.publishRes).error) :
    publishStep cfg w' st = publishStep cfg w st := by
  unfold publishStep
  rw [h]

theorem runRelease_world_congr (inc : List Char → List Char) (cfg : Config)
    (w w' : World) (store raw : List (String × List Char))
    (hadd : ∀ f, (w'.addRes f).error = (w.addRes f).error)
    (ht : w'.testRes = w.testRes) (hc : w'.commitRes = w.commitRes)
    (htg : w'.tagRes = w.tagRes) (hp : w'.pushRes = w.pushRes)
    (hpub : (w'.publishRes).error = (w.publishRes).error) :
    runRelease inc cfg w' store raw = runRelease inc cfg w store raw := by
  unfold runRelease
  dsimp only
  rw [testStep_world_congr cfg w w' _ ht,
    incrementAll_world_congr inc cfg.dryRun w w' hadd,
    commitStep_world_congr cfg.dryRun w w' _ hc,
    tagStep_world_congr cfg.dryRun w w' _ htg,
    pushStep_world_congr cfg w w' _ hp,
    publishStep_world_congr cfg w w' _ hpub]

theorem effects_prefix_of_cases {a b : RunSt}
    (h : a.effects = b.effects ∨ ∃ x, a.effects = b.effects ++ [x]) :
    List.IsPrefix b.effects a.effects := by
  rcases h with h | ⟨x, h⟩
  · rw [h]
  · exact ⟨[x], h.symm⟩

theorem post_steps_effects_extend (cfg : Config) (w : World) (st : RunSt) :
    List.IsPrefix st.effects
      (publishStep cfg w (pushStep cfg w (tagStep cfg.dryRun w
        (commitStep cfg.dryRun w st)))).effects := by
  have p1 : List.IsPrefix st.effects
      (commitStep cfg.dryRun w st).effects :=
    effects_prefix_of_cases
      ((commitStep_effects_cases cfg.dryRun w st).imp id (fun h => ⟨_, h⟩))
  have p2 : List.IsPrefix (commitStep cfg.dryRun w st).effects
      (tagStep cfg.dryRun w (commitStep cfg.dryRun w st)).effects :=
    effects_prefix_of_cases
      ((tagStep_effects_cases cfg.dryRun w
        (commitStep cfg.dryRun w st)).imp id (fun h => ⟨_, h⟩))
  have p3 : List.IsPrefix
      (tagStep cfg.dryRun w (commitStep cfg.dryRun w st)).effects
      (pushStep cfg w (tagStep cfg.dryRun w
        (commitStep cfg.dryRun w st))).effects :=
    effects_prefix_of_cases
      ((pushStep_effects_cases cfg w
        (tagStep cfg.dryRun w (commitStep cfg.dryRun w st))).imp id
          (fun h => ⟨_, h⟩))
  have p4 : List.IsPrefix
      (pushStep cfg w (tagStep cfg.dryRun w
        (commitStep cfg.dryRun w st))).effects
      (publishStep cfg w (pushStep cfg w (tagStep cfg.dryRun w
        (commitStep cfg.dryRun w st)))).effects :=
    effects_prefix_of_cases
      ((publishStep_effects_cases cfg w
        (pushStep cfg w (tagStep cfg.dryRun w
          (commitStep cfg.dryRun w st)))).imp id (fun h => ⟨_, h⟩))
  exact ((p1.trans p2).trans p3).trans p4

theorem runRelease_effects_extend (inc : List Char → List Char)
    (cfg : Config) (w : World) (store raw : List (String × List Char)) :
    List.IsPrefix
      (incrementAll inc cfg.dryRun w
        (validateStep raw (testStep cfg w
          (inspectStep cfg.type (initSt store)))).2
        (validateStep raw (testStep cfg w
          (inspectStep cfg.type (initSt store)))).1).effects
      (runRelease inc cfg w store raw).1 := by
  unfold runRelease
  dsimp only
  exact post_steps_effects_extend cfg w _

theorem inspectStep_effects (type : List Char) (st : RunSt) :
    (inspectStep type st).effects = st.effects := by
  unfold inspectStep
  split_ifs <;> rfl

theorem testStep_effects (cfg : Config) (w : World) (st : RunSt) :
    (testStep cfg w st).effects = st.effects := by
  unfold testStep
  split_ifs <;> rfl

theorem validateStep_effects (raw : List (String × List Char)) (st : RunSt) :
    ((validateStep raw st).1).effects = st.effects := by
  unfold validateStep
  split_ifs
  · rfl
  · split <;> rfl

theorem validateTargets_error_bad_token (store : List (String × List Char)) :
    ∀ raw : List (String × List Char), ∀ f tok,
      (f, tok) ∈ raw → lineTokenValid tok = false →
      (∀ p ∈ raw, (lookupStore store p.1).isSome = true) →
      ∃ tok2, lineTokenValid tok2 = false ∧
        validateTargets store raw = .error (.invalidLine tok2) := by
  intro raw
  induction raw with
  | nil => intro f tok h _ _; simp at h
  | cons p rest ih =>
    intro f tok hmem hbad hex
    obtain ⟨g, tk⟩ := p
    have hgex : (lookupStore store g).isSome = true :=
      hex (g, tk) (List.mem_cons_self _ _)
    have hnone : (lookupStore store g).isNone = false := by
      cases hx : lookupStore store g
      · rw [hx] at hgex; simp at hgex
      · simp
    by_cases htk : lineTokenValid tk = true
    · rcases List.mem_cons.mp hmem with heq | hmem2
      · rw [Prod.mk.injEq] at heq
        rw [← heq.2] at htk
        rw [hbad] at htk
        simp at htk
      · obtain ⟨tok2, h2f, h2⟩ := ih f tok hmem2 hbad
          (fun q hq => hex q (List.mem_cons_of_mem _ hq))
        refine ⟨tok2, h2f, ?_⟩
        unfold validateTargets
        rw [if_neg (by simp [hnone]), if_neg (by simp [htk]), h2]
    · refine ⟨tk, by simpa using htk, ?_⟩
      unfold validateTargets
      rw [if_neg (by simp [hnone]), if_pos (by simpa using htk)]

theorem runRelease_validate_error (inc : List Char → List Char) (cfg : Config)
    (w : World) (store : List (String × List Char))
    (raw : List (String × List Char)) (e : Err)
    (htype : isReleaseType cfg.type = true)
    (htest : w.testRes.error = false)
    (hval : validateTargets store raw = .error e) :
    runRelease inc cfg w store raw = ([], .error e) := by
  unfold runRelease
  dsimp only
  rw [inspectStep_ok cfg.type (initSt store) htype,
    testStep_noerror cfg w (initSt store) htest,
    validateStep_of_error raw (initSt store) e rfl hval]
  dsimp only
  rw [incrementAll_nil,
    commitStep_err cfg.dryRun w _ (by simp),
    tagStep_err cfg.dryRun w _ (by simp),
    pushStep_err cfg w _ (by simp),
    publishStep_err cfg w _ (by simp)]
  rfl

theorem runRelease_bad_type (inc : List Char → List Char) (cfg : Config)
    (w : World) (store : List (String × List Char))
    (raw : List (String × List Char))
    (h : isReleaseType cfg.type = false) :
    runRelease inc cfg w store raw = ([], .error (.badType cfg.type)) := by
  unfold runRelease
  dsimp only
  rw [inspectStep_bad cfg.type (initSt store) rfl h,
    testStep_err cfg w _ (by simp),
    validateStep_err raw _ (by simp)]
  dsimp only
  rw [incrementAll_nil,
    commitStep_err cfg.dryRun w _ (by simp),
    tagStep_err cfg.dryRun w _ (by simp),
    pushStep_err cfg w _ (by simp),
    publishStep_err cfg w _ (by simp)]
  rfl

/-- C2: the claim says a uniformly CRLF input makes the detector return the
CRLF token and that the result always lies in the set containing LF, CR,
CRLF and the empty token; the code instead returns the literal carriage
return plus form feed on the uniform-CRLF branch, so this theorem evaluates
the code at a uniformly CRLF input and records that the returned token is
not CRLF. -/
theorem c2_detect_crlf_code_eval :
    detectLineEnding ['a', '\r', '\n', 'b', '\r', '\n'] = crffToken ∧
      crffToken ≠ ['\r', '\n'] := by
  constructor
  · simp [detectLineEnding, jsSplit, splitNE, List.isPrefixOf, crffToken]
  · decide

/-- C3: counterexample to the claim that an input without CR and LF makes
the detector return the empty token: at the concrete input abc the detector
does not return the empty string. -/
theorem c3_no_break_counterexample :
    detectLineEnding ['a', 'b', 'c'] ≠ [] := by
  rw [detectLineEnding_no_break ['a', 'b', 'c'] (by decide)]
  simp [crffToken]

/-- C3 (amended): an input without CR and LF has all three split counts
equal to one, so the detector takes the uniform-CRLF branch and returns
that branch's token (carriage return plus form feed, as the code writes
it); the empty-token branch is unreachable because the guard compares split
counts, which are each at least one. -/
theorem c3_no_break_returns_crff (s : List Char)
    (h : ∀ c ∈ s, c ≠ '\r' ∧ c ≠ '\n') :
    detectLineEnding s = crffToken ∧ detectLineEnding s ≠ [] := by
  have hc := detectLineEnding_no_break s h
  refine ⟨hc, ?_⟩
  rw [hc]
  simp [crffToken]

/-- C3 witness: the amended claim at the concrete input abc. -/
theorem c3_no_break_returns_crff_witness :
    detectLineEnding ['a', 'b', 'c'] = crffToken ∧
      detectLineEnding ['a', 'b', 'c'] ≠ [] :=
  c3_no_break_returns_crff ['a', 'b', 'c'] (by decide)

/-- C9: counterexample to the claim that the process exits with a non-zero
code whenever the release-type positional argument is missing: in the
git-release.js variant the usage path exits with the positional count
itself, which is zero when the argument is missing. -/
theorem c9_missing_arg_exit_zero_counterexample :
    gitReleaseArgExit false false 0 = some 0 := rfl

/-- C9 (amended): index.js exits zero on success and one when the
positional count differs from one (help and version not requested), and an
invalid release type aborts the run with a thrown error; the
git-release.js variant instead exits with the positional count itself on
the usage path, hence zero when the argument is missing. -/
theorem c9_exit_codes_amended :
    (∀ p : Nat, indexArgExitCode false false p = if p = 1 then 0 else 1) ∧
    (∀ (hb : Bool) (p : Nat), hb = true ∨ p ≠ 1 →
      gitReleaseArgExit false hb p = some p) ∧
    (∀ (inc : List Char → List Char) (cfg : Config) (w : World)
      (store raw : List (String × List Char)),
      isReleaseType cfg.type = false →
      runRelease inc cfg w store raw = ([], .error (.badType cfg.type))) := by
  refine ⟨?_, ?_, ?_⟩
  · intro p
    by_cases hp : p = 1 <;> simp [indexArgExitCode, indexBadArgs, hp]
  · intro hb p h
    rcases h with rfl | hp
    · simp [gitReleaseArgExit]
    · simp [gitReleaseArgExit, hp]
  · intro inc cfg w store raw h
    exact runRelease_bad_type inc cfg w store raw h

/-- C9 witness: the amended claim at concrete inputs, among them the
missing-argument invocation of the git-release.js variant and a run of
index.js with a bogus release type. -/
theorem c9_exit_codes_amended_witness :
    (indexArgExitCode false false 0 = if 0 = 1 then 0 else 1) ∧
    gitReleaseArgExit false false 0 = some 0 ∧
    runRelease incConst cfgBadType worldOk [] [] =
      ([], .error (.badType cfgBadType.type)) :=
  ⟨c9_exit_codes_amended.1 0,
    c9_exit_codes_amended.2.1 false 0 (Or.inr (by decide)),
    c9_exit_codes_amended.2.2 incConst cfgBadType worldOk [] [] (by decide)⟩

/-- C10: the token zero passes the digit-regex validation of
getConfigTarget, so the run does not abort with the invalid-line-number
validation error there; the patcher then computes line index minus one,
which falls outside the split line sequence, and the run aborts with the
JS undefined-receiver type error instead of patching any line. -/
theorem c10_zero_line_token :
    (∀ (store : List (String × List Char)) (f : String),
      (lookupStore store f).isSome = true →
      validateTargets store [(f, ['0'])] = .ok [(f, 0)]) ∧
    (∀ (inc : List Char → List Char) (dry : Bool) (w : World) (st : RunSt)
      (f : String) (source : List Char),
      lookupStore st.store f = some source →
      incrementOne inc dry w st (f, 0) = { st with err := some .typeError }) := by
  constructor
  · intro store f h
    have hnone : (lookupStore store f).isNone = false := by
      cases hx : lookupStore store f
      · rw [hx] at h; simp at h
      · simp
    unfold validateTargets
    rw [if_neg (by simp [hnone]), if_neg (by decide)]
    rfl
  · intro inc dry w st f source hlook
    exact incrementOne_oob inc dry w st f 0 source hlook (by intro hc; omega)

/-- C10 witness: the two parts at a concrete one-file tree. -/
theorem c10_zero_line_token_witness :
    validateTargets storeA [(fileA, ['0'])] = .ok [(fileA, 0)] ∧
    incrementOne incConst false worldOk (initSt storeA) (fileA, 0) =
      { initSt storeA with err := some .typeError } :=
  ⟨c10_zero_line_token.1 storeA fileA (by simp [storeA, lookupStore]),
    c10_zero_line_token.2 incConst false worldOk (initSt storeA) fileA
      contentA (by simp [storeA, initSt, lookupStore])⟩

/-- C7: when the selected line holds no match of the version pattern, the
patcher leaves the file content unchanged (the unchanged line sequence is
rejoined with the detected token, reproducing the source exactly), derives
no version value, and raises no error; the loop continues with the next
target. -/
theorem c7_no_match_silent (inc : List Char → List Char) (w : World)
    (st : RunSt) (f : String) (line : Nat) (source : List Char)
    (herr : st.err = none)
    (hlook : lookupStore st.store f = some source)
    (hsl : 1 ≤ line ∧ line - 1 <
      (jsSplit (detectLineEnding source) source).length)
    (hnm : firstMatch ((jsSplit (detectLineEnding source) source).get
      ⟨line - 1, hsl.2⟩) = none)
    (hadd : (w.addRes f).error = false) :
    (incrementOne inc false w st (f, line)).err = none ∧
    (incrementOne inc false w st (f, line)).version = st.version ∧
    ∀ g, lookupStore (incrementOne inc false w st (f, line)).store g
      = lookupStore st.store g := by
  rw [incrementOne_wet inc w st f line source hlook hsl]
  dsimp only
  rw [if_neg (by simp [hadd])]
  rw [replaceInc_no_match inc st.version _ hnm]
  dsimp only
  refine ⟨herr, rfl, fun g => ?_⟩
  have hsrc : joinSep (detectLineEnding source)
      ((jsSplit (detectLineEnding source) source).set (line - 1)
        ((jsSplit (detectLineEnding source) source).get
          ⟨line - 1, hsl.2⟩)) = source := by
    rw [set_get_self, joinSep_jsSplit_detect]
  rw [hsrc]
  exact lookupStore_update_same st.store f source hlook g

/-- C7 witness: a concrete one-line file without a version literal is left
untouched and raises nothing. -/
theorem c7_no_match_silent_witness :
    (incrementOne incConst false worldOk (initSt storeB) (fileB, 1)).err
      = none ∧
    (incrementOne incConst false worldOk (initSt storeB) (fileB, 1)).version
      = (initSt storeB).version ∧
    lookupStore (incrementOne incConst false worldOk (initSt storeB)
      (fileB, 1)).store fileB = lookupStore (initSt storeB).store fileB := by
  have hs : 1 ≤ 1 ∧ 1 - 1 <
      (jsSplit (detectLineEnding ['x']) ['x']).length := by
    constructor
    · omega
    · simp [detectLineEnding, jsSplit, splitNE, List.isPrefixOf, crffToken]
  have h := c7_no_match_silent incConst worldOk (initSt storeB) fileB 1 ['x']
    rfl (by simp [storeB, initSt, lookupStore]) hs
    (by simp [detectLineEnding, jsSplit, splitNE, List.isPrefixOf, crffToken,
      firstMatch, matchMainAt, matchNum]) rfl
  exact ⟨h.1, h.2.1, h.2.2 fileB⟩

/-- C8: round trip of the line-ending classification: the content a target
file holds after the patch classifies to the same line-ending token as the
content read, because the detected token is reused as the join separator
and the replaced and replacement substrings contain no line-break
characters. -/
theorem c8_line_ending_roundtrip (inc : List Char → List Char) (w : World)
    (st : RunSt) (f : String) (line : Nat) (source : List Char)
    (hlook : lookupStore st.store f = some source)
    (hsl : 1 ≤ line ∧ line - 1 <
      (jsSplit (detectLineEnding source) source).length)
    (hinc : ∀ s, inc s ≠ [] ∧ ∀ ch ∈ inc s, ch ≠ '\r' ∧ ch ≠ '\n')
    (hver : ∀ ch ∈ st.version, ch ≠ '\r' ∧ ch ≠ '\n') :
    ∃ out, lookupStore (incrementOne inc false w st (f, line)).store f
        = some out ∧
      detectLineEnding out = detectLineEnding source := by
  rw [incrementOne_wet inc w st f line source hlook hsl]
  dsimp only
  cases hfm : firstMatch ((jsSplit (detectLineEnding source) source).get
      ⟨line - 1, hsl.2⟩) with
  | none =>
    rw [replaceInc_no_match inc st.version _ hfm]
    dsimp only
    have hsrc : joinSep (detectLineEnding source)
        ((jsSplit (detectLineEnding source) source).set (line - 1)
          ((jsSplit (detectLineEnding source) source).get
            ⟨line - 1, hsl.2⟩)) = source := by
      rw [set_get_self, joinSep_jsSplit_detect]
    rw [hsrc]
    refine ⟨source, ?_, rfl⟩
    split
    · exact lookupStore_update_self st.store f source
    · exact lookupStore_update_self st.store f source
  | some pm =>
    obtain ⟨pre, m, post⟩ := pm
    have hrv : replaceInc inc st.version
        ((jsSplit (detectLineEnding source) source).get ⟨line - 1, hsl.2⟩)
          = (pre ++ (if st.version = [] then inc m else st.version) ++ post,
            if st.version = [] then inc m else st.version) := by
      unfold replaceInc
      rw [hfm]
    rw [hrv]
    dsimp only
    obtain ⟨hd1, hmne, hmch⟩ := firstMatch_spec _ _ _ _ hfm
    have hvne : (if st.version = [] then inc m else st.version) ≠ [] := by
      by_cases hc : st.version = []
      · simp [hc, (hinc m).1]
      · simp [hc]
    have hvch : ∀ ch ∈ (if st.version = [] then inc m else st.version),
        ch ≠ '\r' ∧ ch ≠ '\n' := by
      by_cases hc : st.version = []
      · simp only [hc, if_pos rfl]
        exact (hinc m).2
      · simp only [if_neg hc]
        exact hver
    have hmbr : ∀ ch ∈ m, ch ≠ '\r' ∧ ch ≠ '\n' := by
      intro ch hch
      have := match_chars_not_break m hmch ch hch
      exact ⟨this.1, this.2.1⟩
    obtain ⟨A, B, hset, hval⟩ := joinSep_set (detectLineEnding source)
      (jsSplit (detectLineEnding source) source) (line - 1) hsl.2
    have h1 := hval hsl.2
    rw [joinSep_jsSplit_detect] at h1
    rw [hset]
    have hkey := detect_subst (A ++ pre) (post ++ B) m
      (if st.version = [] then inc m else st.version) hmne hvne hmbr hvch
    have hgoal : detectLineEnding (A ++ (pre ++
        (if st.version = [] then inc m else st.version) ++ post) ++ B)
        = detectLineEnding source := by
      conv_rhs => rw [h1, hd1]
      simp only [List.append_assoc] at hkey ⊢
      exact hkey
    refine ⟨_, ?_, hgoal⟩
    split
    · exact lookupStore_update_self st.store f _
    · exact lookupStore_update_self st.store f _

/-- C8 witness: patching the version literal on the single line of a
concrete file preserves the detected line-ending classification. -/
theorem c8_line_ending_roundtrip_witness :
    ∃ out, lookupStore (incrementOne incConst false worldOk (initSt storeA)
        (fileA, 1)).store fileA = some out ∧
      detectLineEnding out = detectLineEnding contentA := by
  refine c8_line_ending_roundtrip incConst worldOk (initSt storeA) fileA 1
    contentA (by simp [storeA, initSt, lookupStore]) ?_ ?_ ?_
  · constructor
    · omega
    · simp [detectLineEnding, jsSplit, splitNE, List.isPrefixOf, crffToken,
        contentA]
  · intro s
    constructor
    · simp [incConst]
    · intro ch hch
      simp only [incConst, List.mem_cons, List.not_mem_nil, or_false] at hch
      rcases hch with rfl | rfl | rfl | rfl | rfl <;> exact (by decide)
  · intro ch hch
    simp [initSt] at hch

/-- The guarded increment of src/index.js (and the spawnSync variants): in
an invocation with two or more targets whose targeted lines each contain a
version match, the shared version is computed once, from the first
target's matched substring, and the increment loop stamps that one stored
value verbatim into every target's line. -/
theorem increment_version_once_index (inc : List Char → List Char) (w : World)
    (store : List (String × List Char)) (t0 : String × Nat)
    (rest : List (String × Nat))
    (_htwo : rest ≠ [])
    (hmatch : ∀ t ∈ t0 :: rest, (targetMatch store t).isSome)
    (hnodup : ((t0 :: rest).map Prod.fst).Nodup)
    (hadd : ∀ f, (w.addRes f).error = false)
    (hinc : ∀ s, inc s ≠ []) :
    ∃ pre0 m0 post0, targetMatch store t0 = some (pre0, m0, post0) ∧
      (incrementAll inc false w (t0 :: rest) (initSt store)).err = none ∧
      (incrementAll inc false w (t0 :: rest) (initSt store)).version
        = inc m0 ∧
      ∀ t ∈ t0 :: rest,
        lookupStore (incrementAll inc false w (t0 :: rest)
          (initSt store)).store t.1 = patchedContent store t (inc m0) := by
  obtain ⟨f0, line0⟩ := t0
  obtain ⟨source, pre, m, post, hl0, htm, hsl, hm, hpatch⟩ :=
    targetMatch_inv store (f0, line0) (hmatch _ (List.mem_cons_self _ _))
  refine ⟨pre, m, post, htm, ?_⟩
  rw [incrementAll_cons, if_neg (by simp [initSt])]
  rw [incrementOne_wet inc w (initSt store) f0 line0 source hl0 hsl]
  dsimp only
  rw [if_neg (by simp [hadd f0])]
  rw [show (initSt store).version = [] from rfl,
    replaceInc_match_unset inc _ pre m post hm]
  have hf0notin : f0 ∉ rest.map Prod.fst := by
    simp only [List.map_cons, List.nodup_cons] at hnodup
    exact hnodup.1
  obtain ⟨fe, fv, fp, ff⟩ := incrementAll_reuse inc w store (inc m) (hinc m)
    hadd rest
    { store := updateStore (initSt store).store f0
        (joinSep (detectLineEnding source)
          ((jsSplit (detectLineEnding source) source).set (line0 - 1)
            ((pre ++ inc m ++ post, inc m).1))),
      version := (pre ++ inc m ++ post, inc m).2,
      effects := (initSt store).effects ++
        [.writeFile f0 (joinSep (detectLineEnding source)
          ((jsSplit (detectLineEnding source) source).set (line0 - 1)
            ((pre ++ inc m ++ post, inc m).1))), .gitAdd f0],
      err := (initSt store).err }
    rfl rfl
    (by
      intro t2 ht2
      have hne : t2.1 ≠ f0 := by
        intro he
        exact hf0notin (he ▸ List.mem_map_of_mem Prod.fst ht2)
      dsimp only
      rw [lookupStore_update_ne _ f0 t2.1 _ (fun he => hne he.symm)]
      rfl)
    (fun t2 ht2 => hmatch t2 (List.mem_cons_of_mem _ ht2))
    (by
      simp only [List.map_cons, List.nodup_cons] at hnodup
      exact hnodup.2)
  refine ⟨fe, fv, ?_⟩
  intro t2 ht2
  rcases List.mem_cons.mp ht2 with rfl | ht2
  · rw [ff f0 hf0notin]
    dsimp only
    rw [lookupStore_update_self, hpatch (inc m)]
  · exact fp t2 ht2

theorem replaceIncGR_match (inc : List Char → List Char)
    (v line pre m post : List Char)
    (h : firstMatchGR line = some (pre, m, post)) :
    replaceIncGR inc v line = (pre ++ inc m ++ post, inc m) := by
  simp [replaceIncGR, h]

theorem incrementOneGR_wet (inc : List Char → List Char)
    (st : GRSt) (f : String) (tok : List Char) (source : List Char)
    (hlook : lookupStore st.store f = some source)
    (htok : lineTokenValid tok = true)
    (h : 1 ≤ digitsToNat tok ∧ digitsToNat tok - 1 <
      (jsSplit (detectLineEnding source) source).length) :
    incrementOneGR inc false st (f, tok) =
      .ok (let le := detectLineEnding source
       let lines := jsSplit le source
       let rv := replaceIncGR inc st.version
         (lines.get ⟨digitsToNat tok - 1, h.2⟩)
       { st with
         store := updateStore st.store f
           (joinSep le (lines.set (digitsToNat tok - 1) rv.1)),
         version := rv.2 }) := by
  unfold incrementOneGR
  simp only [hlook, htok, Bool.not_true]
  rw [dif_pos h]
  simp

theorem targetMatchGR_inv (store₀ : List (String × List Char))
    (t : String × List Char) (h : (targetMatchGR store₀ t).isSome) :
    ∃ source pre m post,
      lookupStore store₀ t.1 = some source ∧
      lineTokenValid t.2 = true ∧
      targetMatchGR store₀ t = some (pre, m, post) ∧
      ∃ hsl : 1 ≤ digitsToNat t.2 ∧ digitsToNat t.2 - 1 <
          (jsSplit (detectLineEnding source) source).length,
        firstMatchGR ((jsSplit (detectLineEnding source) source).get
          ⟨digitsToNat t.2 - 1, hsl.2⟩) = some (pre, m, post) ∧
        ∀ vv, patchedContentGR store₀ t vv =
          some (joinSep (detectLineEnding source)
            ((jsSplit (detectLineEnding source) source).set
              (digitsToNat t.2 - 1) (pre ++ vv ++ post))) := by
  unfold targetMatchGR at h
  split at h
  next hnone => simp at h
  next line hline =>
    unfold targetLineGR at hline
    split at hline
    next => simp at hline
    next source heq =>
      dsimp only at hline
      split at hline
      next htok =>
        split at hline
        next hsl =>
          simp only [Option.some.injEq] at hline
          rw [Option.isSome_iff_exists] at h
          obtain ⟨⟨pre, m, post⟩, hm⟩ := h
          refine ⟨source, pre, m, post, heq, htok, ?_, hsl, ?_, ?_⟩
          · unfold targetMatchGR targetLineGR
            rw [heq]
            dsimp only
            rw [if_pos htok]
            rw [dif_pos hsl]
            dsimp only
            rw [hline]
            exact hm
          · rw [hline]
            exact hm
          · intro vv
            unfold patchedContentGR
            rw [heq]
            dsimp only
            rw [if_pos htok]
            rw [dif_pos hsl]
            rw [hline, hm]
        next => simp at hline
      next => simp at hline

theorem incrementAllGR_indep (inc : List Char → List Char)
    (store₀ : List (String × List Char)) :
    ∀ (ts : List (String × List Char)) (st : GRSt),
      (∀ t ∈ ts, lookupStore st.store t.1 = lookupStore store₀ t.1) →
      (∀ t ∈ ts, (targetMatchGR store₀ t).isSome) →
      (ts.map Prod.fst).Nodup →
      ∃ stf, incrementAllGR inc false ts st = .ok stf ∧
        stf.err = st.err ∧
        (∀ t ∈ ts, ∃ pre m post,
          targetMatchGR store₀ t = some (pre, m, post) ∧
          lookupStore stf.store t.1 = patchedContentGR store₀ t (inc m)) ∧
        (∀ f, f ∉ ts.map Prod.fst →
          lookupStore stf.store f = lookupStore st.store f) := by
  intro ts
  induction ts with
  | nil =>
    intro st _ _ _
    exact ⟨st, rfl, rfl, by simp, fun f _ => rfl⟩
  | cons t ts ih =>
    intro st hlook hmatch hnodup
    obtain ⟨f0, tok0⟩ := t
    obtain ⟨source, pre, m, post, hl0, htok, htm, hsl, hm, hpatch⟩ :=
      targetMatchGR_inv store₀ (f0, tok0) (hmatch _ (List.mem_cons_self _ _))
    dsimp only at hl0 htok hsl hm hpatch
    have hlst : lookupStore st.store f0 = some source := by
      rw [hlook _ (List.mem_cons_self _ _)]
      exact hl0
    have hstep := incrementOneGR_wet inc st f0 tok0 source hlst htok hsl
    dsimp only at hstep
    rw [replaceIncGR_match inc st.version _ pre m post hm] at hstep
    rw [show incrementAllGR inc false ((f0, tok0) :: ts) st
      = (match incrementOneGR inc false st (f0, tok0) with
        | .error e => .error e
        | .ok st2 => incrementAllGR inc false ts st2) from rfl]
    rw [hstep]
    dsimp only
    have hf0notin : f0 ∉ ts.map Prod.fst := by
      simp only [List.map_cons, List.nodup_cons] at hnodup
      exact hnodup.1
    obtain ⟨stf, heq, herr, hp, hf⟩ := ih
      { st with
        store := updateStore st.store f0
          (joinSep (detectLineEnding source)
            ((jsSplit (detectLineEnding source) source).set
              (digitsToNat tok0 - 1) ((pre ++ inc m ++ post, inc m).1))),
        version := (pre ++ inc m ++ post, inc m).2 }
      (by
        intro t2 ht2
        have hne : t2.1 ≠ f0 := by
          intro he
          exact hf0notin (he ▸ List.mem_map_of_mem Prod.fst ht2)
        dsimp only
        rw [lookupStore_update_ne st.store f0 t2.1 _ (fun he => hne he.symm)]
        exact hlook t2 (List.mem_cons_of_mem _ ht2))
      (fun t2 ht2 => hmatch t2 (List.mem_cons_of_mem _ ht2))
      (by
        simp only [List.map_cons, List.nodup_cons] at hnodup
        exact hnodup.2)
    refine ⟨stf, heq, herr, ?_, ?_⟩
    · intro t2 ht2
      rcases List.mem_cons.mp ht2 with rfl | ht2
      · refine ⟨pre, m, post, htm, ?_⟩
        rw [hf f0 hf0notin]
        dsimp only
        rw [lookupStore_update_self, hpatch (inc m)]
      · exact hp t2 ht2
    · intro f hfn
      simp only [List.map_cons, List.mem_cons] at hfn
      push_neg at hfn
      rw [hf f hfn.2]
      dsimp only
      rw [lookupStore_update_ne st.store f0 f _ (fun he => hfn.1 he.symm)]

/-- C1 (amended): how the shared version is handled differs between the
variants.  In src/index.js and the spawnSync variants the replace callback
is guarded by if (not config.version): in an invocation with two or more
targets whose targeted lines each contain a version match, the shared
version is computed once, from the first target's matched substring, and
that one stored value is stamped verbatim into every target's line (first
conjunct).  In src/git-release.js the callback reassigns config.version
from every target's own match unconditionally, so each target is
independently incremented: its line has its own matched substring replaced
by the increment of that very substring, and different targets may receive
different version strings (second conjunct). -/
theorem c1_version_policy_amended :
    (∀ (inc : List Char → List Char) (w : World)
      (store : List (String × List Char)) (t0 : String × Nat)
      (rest : List (String × Nat)),
      rest ≠ [] →
      (∀ t ∈ t0 :: rest, (targetMatch store t).isSome) →
      ((t0 :: rest).map Prod.fst).Nodup →
      (∀ f, (w.addRes f).error = false) →
      (∀ s, inc s ≠ []) →
      ∃ pre0 m0 post0, targetMatch store t0 = some (pre0, m0, post0) ∧
        (incrementAll inc false w (t0 :: rest) (initSt store)).err = none ∧
        (incrementAll inc false w (t0 :: rest) (initSt store)).version
          = inc m0 ∧
        ∀ t ∈ t0 :: rest,
          lookupStore (incrementAll inc false w (t0 :: rest)
            (initSt store)).store t.1 = patchedContent store t (inc m0)) ∧
    (∀ (inc : List Char → List Char) (store ts : List (String × List Char)),
      (∀ t ∈ ts, (targetMatchGR store t).isSome) →
      (ts.map Prod.fst).Nodup →
      ∃ stf, incrementAllGR inc false ts
          { store := store, version := [], err := none } = .ok stf ∧
        stf.err = none ∧
        ∀ t ∈ ts, ∃ pre m post,
          targetMatchGR store t = some (pre, m, post) ∧
          lookupStore stf.store t.1 = patchedContentGR store t (inc m)) := by
  constructor
  · intro inc w store t0 rest htwo hmatch hnodup hadd hinc
    exact increment_version_once_index inc w store t0 rest htwo hmatch
      hnodup hadd hinc
  · intro inc store ts hmatch hnodup
    obtain ⟨stf, heq, herr, hp, _⟩ := incrementAllGR_indep inc store ts
      { store := store, version := [], err := none } (fun t _ => rfl)
      hmatch hnodup
    exact ⟨stf, heq, herr, hp⟩

/-- C1 counterexample to the original claim, over its cited scope
(src/git-release.js lines 157-193): with two targets holding the version
literals 1.0.0 and 2.5.7, the run patches the second file with 2.5.8 — the
increment of its own match — not with the stored first increment 1.0.1,
and the final shared version 2.5.8 is not the increment of the first
target's match. -/
theorem c1_independent_increment_counterexample :
    incrementAllGR incPatchFix false rawTwo
        { store := storeTwoVers, version := [], err := none }
      = .ok (GRSt.mk
          [(fileA, ['a', ' ', '1', '.', '0', '.', '1']),
            (fileB, ['b', ' ', '2', '.', '5', '.', '8', ' ', 'z'])]
          ['2', '.', '5', '.', '8'] none) ∧
    (['2', '.', '5', '.', '8'] : List Char)
      ≠ incPatchFix ['1', '.', '0', '.', '0'] := by
  constructor
  · simp [incrementAllGR, incrementOneGR, replaceIncGR, firstMatchGR,
      matchSemverGRAt, matchDigits, optGroup, isSemverCls1, isSemverCls2Pre,
      isSemverCls2Build, detectLineEnding, jsSplit, splitNE,
      List.isPrefixOf, crffToken, joinSep, updateStore, lookupStore,
      lineTokenValid, digitsToNat, keepFirst, storeTwoVers, fileA, fileB,
      incPatchFix, rawTwo]
  · simp [incPatchFix]

/-- C1 witness: the amended claim at a concrete two-target invocation for
each variant — the guarded loop stamps the first increment into both
files, the unguarded loop patches each file with the increment of its own
match. -/
theorem c1_version_policy_amended_witness :
    (∃ pre0 m0 post0,
      targetMatch storeTwoVers (fileA, 1) = some (pre0, m0, post0) ∧
      (incrementAll incConst false worldOk [(fileA, 1), (fileB, 1)]
        (initSt storeTwoVers)).err = none ∧
      (incrementAll incConst false worldOk [(fileA, 1), (fileB, 1)]
        (initSt storeTwoVers)).version = incConst m0 ∧
      ∀ t ∈ [(fileA, 1), (fileB, 1)],
        lookupStore (incrementAll incConst false worldOk
          [(fileA, 1), (fileB, 1)] (initSt storeTwoVers)).store t.1
          = patchedContent storeTwoVers t (incConst m0)) ∧
    (∃ stf, incrementAllGR incPatchFix false rawTwo
        { store := storeTwoVers, version := [], err := none } = .ok stf ∧
      stf.err = none ∧
      ∀ t ∈ rawTwo, ∃ pre m post,
        targetMatchGR storeTwoVers t = some (pre, m, post) ∧
        lookupStore stf.store t.1
          = patchedContentGR storeTwoVers t (incPatchFix m)) :=
  ⟨c1_version_policy_amended.1 incConst worldOk storeTwoVers (fileA, 1)
      [(fileB, 1)] (by simp)
      (by
        intro t ht
        simp only [List.mem_cons, List.not_mem_nil, or_false] at ht
        rcases ht with rfl | rfl <;>
          simp [targetMatch, targetLine, storeTwoVers, lookupStore,
            detectLineEnding, jsSplit, splitNE, List.isPrefixOf, crffToken,
            firstMatch, matchMainAt, matchNum, fileA, fileB])
      (by simp [fileA, fileB])
      (fun f => rfl)
      (fun s => by simp [incConst]),
    c1_version_policy_amended.2 incPatchFix storeTwoVers rawTwo
      (by
        intro t ht
        simp only [rawTwo, List.mem_cons, List.not_mem_nil, or_false] at ht
        rcases ht with rfl | rfl <;>
          simp [targetMatchGR, targetLineGR, storeTwoVers, lookupStore,
            detectLineEnding, jsSplit, splitNE, List.isPrefixOf, crffToken,
            firstMatchGR, matchSemverGRAt, matchDigits, optGroup,
            isSemverCls1, isSemverCls2Pre, isSemverCls2Build,
            lineTokenValid, digitsToNat, fileA, fileB])
      (by simp [rawTwo, fileA, fileB])⟩

/-- C4: with the dry-run flag set, no effect at all is produced (no file
write and no mutating external command), yet a successful dry run reports
in its final message exactly the version value the wet increment phase
would compute on the same inputs. -/
theorem c4_dry_run_invariant (inc : List Char → List Char) (cfg : Config)
    (w : World) (store raw : List (String × List Char))
    (hdry : cfg.dryRun = true)
    (hinc : ∀ s, inc s ≠ [])
    (hadd : ∀ f, (w.addRes f).error = false) :
    (runRelease inc cfg w store raw).1 = [] ∧
    ∀ msg, (runRelease inc cfg w store raw).2 = .ok msg →
      msg = releasedMsg ((incrementAll inc false w
        (validatedTargets store raw) (initSt store)).version) true := by
  unfold runRelease
  dsimp only
  rw [hdry]
  rw [testStep_dry cfg w _ hdry, commitStep_dry, tagStep_dry,
    pushStep_dry cfg w _ hdry, publishStep_dry cfg w _ hdry]
  by_cases htype : isReleaseType cfg.type = true
  · rw [inspectStep_ok cfg.type (initSt store) htype]
    cases hval : validateTargets store raw with
    | ok ts =>
      rw [validateStep_of_ok raw (initSt store) ts rfl hval]
      dsimp only
      constructor
      · exact (incrementAll_dry_frame inc w ts (initSt store)).2
      · intro msg hok
        cases herr4 : (incrementAll inc true w ts (initSt store)).err with
        | some e => rw [herr4] at hok; simp at hok
        | none =>
          rw [herr4] at hok
          simp only [Except.ok.injEq] at hok
          have hvv := incrementAll_dry_wet_version inc w hinc hadd ts
            (initSt store) (initSt store) rfl (fun _ => ⟨rfl, fun _ => rfl⟩)
          have hts : validatedTargets store raw = ts := by
            unfold validatedTargets
            rw [hval]
          rw [← hok, hvv, hts]
    | error e =>
      rw [validateStep_of_error raw (initSt store) e rfl hval]
      dsimp only
      rw [incrementAll_err_stable inc true w [] _ (by simp)]
      exact ⟨rfl, fun msg hok => by simp at hok⟩
  · rw [inspectStep_bad cfg.type (initSt store) rfl
      (by simpa using htype)]
    rw [validateStep_err raw _ (by simp)]
    dsimp only
    rw [incrementAll_err_stable inc true w [] _ (by simp)]
    exact ⟨rfl, fun msg hok => by simp at hok⟩

/-- C4 witness: a concrete dry run produces no effects; its part-two
implication is applied at a concrete message. -/
theorem c4_dry_run_invariant_witness :
    (runRelease incConst (cfgBase true) worldOk storeA rawA).1 = [] ∧
    ((runRelease incConst (cfgBase true) worldOk storeA rawA).2
        = .ok ['m'] →
      ['m'] = releasedMsg ((incrementAll incConst false worldOk
        (validatedTargets storeA rawA) (initSt storeA)).version) true) := by
  have h := c4_dry_run_invariant incConst (cfgBase true) worldOk storeA rawA
    rfl (fun s => by simp [incConst]) (fun f => rfl)
  exact ⟨h.1, h.2 ['m']⟩

/-- A commit call that exits non-zero with non-empty stderr makes the whole
run raise: the result is an error and no step after commit contributes an
effect. -/
theorem run_commit_failure_aborts (inc : List Char → List Char) (cfg : Config)
    (w : World) (store raw : List (String × List Char))
    (hdry : cfg.dryRun = false)
    (hce : w.commitRes.error = false)
    (hcs : w.commitRes.status ≠ 0)
    (hcst : w.commitRes.stderr ≠ []) :
    (∃ e, (runRelease inc cfg w store raw).2 = .error e) ∧
    ∀ eff ∈ (runRelease inc cfg w store raw).1,
      isPostCommitEff eff = false := by
  unfold runRelease
  dsimp only
  rw [hdry]
  have hbase : ∀ e ∈ ((validateStep raw (testStep cfg w
      (inspectStep cfg.type (initSt store)))).1).effects,
      isPostCommitEff e = false := by
    rw [validateStep_effects, testStep_effects, inspectStep_effects]
    intro e he
    simp [initSt] at he
  have hst4eff : ∀ eff ∈ (incrementAll inc false w
      (validateStep raw (testStep cfg w
        (inspectStep cfg.type (initSt store)))).2
      (validateStep raw (testStep cfg w
        (inspectStep cfg.type (initSt store)))).1).effects,
      isPostCommitEff eff = false := by
    intro e he
    rcases incrementAll_effects_shape isPostCommitEff (fun _ _ => rfl)
      (fun _ => rfl) inc false w _ _ e he with hmem | hp
    · exact hbase e hmem
    · exact hp
  cases herr4 : (incrementAll inc false w
      (validateStep raw (testStep cfg w
        (inspectStep cfg.type (initSt store)))).2
      (validateStep raw (testStep cfg w
        (inspectStep cfg.type (initSt store)))).1).err with
  | some e =>
    rw [commitStep_err false w _ (by simp [herr4]),
      tagStep_err false w _ (by simp [herr4]),
      pushStep_err cfg w _ (by simp [herr4]),
      publishStep_err cfg w _ (by simp [herr4])]
    refine ⟨⟨e, ?_⟩, hst4eff⟩
    rw [herr4]
  | none =>
    rw [commitStep_failure w _ herr4 hce hcs hcst]
    rw [tagStep_err false w _ (by simp),
      pushStep_err cfg w _ (by simp),
      publishStep_err cfg w _ (by simp)]
    constructor
    · exact ⟨.cmdFailed w.commitRes.stderr, rfl⟩
    · intro e he
      dsimp only at he
      rcases List.mem_append.mp he with hm | hm
      · exact hst4eff e hm
      · simp only [List.mem_singleton] at hm
        subst hm
        rfl

/-- C5 counterexample: with a stage call exiting non-zero (status one,
stderr non-empty, no spawn failure) the run does not abort: commit and tag
still execute and the run ends in success, refuting the claim that any
non-zero exit status of a mutating call terminates the run. -/
theorem c5_stage_nonzero_ignored_counterexample :
    runRelease incConst (cfgBase false) worldAddFail storeA rawA =
      ([Eff.writeFile fileA ['v', ' ', '9', '.', '9', '.', '9'],
        Eff.gitAdd fileA, Eff.gitCommit ['9', '.', '9', '.', '9'],
        Eff.gitTag ['9', '.', '9', '.', '9']],
        .ok (releasedMsg ['9', '.', '9', '.', '9'] false)) := by
  simp [runRelease, initSt, inspectStep, isReleaseType, cfgBase, testStep,
    validateStep, validateTargets, lineTokenValid, digitsToNat, lookupStore,
    storeA, rawA, fileA, contentA, incrementAll, incrementOne,
    detectLineEnding, jsSplit, splitNE, List.isPrefixOf, crffToken,
    replaceInc, firstMatch, matchMainAt, matchNum, joinSep, updateStore,
    incConst, worldAddFail, worldOk, okRes, failRes, commitStep, tagStep,
    pushStep, publishStep, remoteOrNA]

/-- A tag call that exits non-zero with non-empty stderr makes the whole
run raise: the result is an error and no step after tag contributes an
effect. -/
theorem run_tag_failure_aborts (inc : List Char → List Char) (cfg : Config)
    (w : World) (store raw : List (String × List Char))
    (hdry : cfg.dryRun = false)
    (hce : w.tagRes.error = false)
    (hcs : w.tagRes.status ≠ 0)
    (hcst : w.tagRes.stderr ≠ []) :
    (∃ e, (runRelease inc cfg w store raw).2 = .error e) ∧
    ∀ eff ∈ (runRelease inc cfg w store raw).1,
      isPostTagEff eff = false := by
  unfold runRelease
  dsimp only
  rw [hdry]
  have hbase : ∀ e ∈ ((validateStep raw (testStep cfg w
      (inspectStep cfg.type (initSt store)))).1).effects,
      isPostTagEff e = false := by
    rw [validateStep_effects, testStep_effects, inspectStep_effects]
    intro e he
    simp [initSt] at he
  have hst4eff : ∀ eff ∈ (incrementAll inc false w
      (validateStep raw (testStep cfg w
        (inspectStep cfg.type (initSt store)))).2
      (validateStep raw (testStep cfg w
        (inspectStep cfg.type (initSt store)))).1).effects,
      isPostTagEff eff = false := by
    intro e he
    rcases incrementAll_effects_shape isPostTagEff (fun _ _ => rfl)
      (fun _ => rfl) inc false w _ _ e he with hmem | hp
    · exact hbase e hmem
    · exact hp
  have hst5eff : ∀ eff ∈ (commitStep false w (incrementAll inc false w
      (validateStep raw (testStep cfg w
        (inspectStep cfg.type (initSt store)))).2
      (validateStep raw (testStep cfg w
        (inspectStep cfg.type (initSt store)))).1)).effects,
      isPostTagEff eff = false := by
    intro e he
    rcases commitStep_effects_cases false w _ with h | h
    · rw [h] at he
      exact hst4eff e he
    · rw [h] at he
      rcases List.mem_append.mp he with hm | hm
      · exact hst4eff e hm
      · simp only [List.mem_singleton] at hm
        subst hm
        rfl
  cases herr5 : (commitStep false w (incrementAll inc false w
      (validateStep raw (testStep cfg w
        (inspectStep cfg.type (initSt store)))).2
      (validateStep raw (testStep cfg w
        (inspectStep cfg.type (initSt store)))).1)).err with
  | some e =>
    rw [tagStep_err false w _ (by simp [herr5]),
      pushStep_err cfg w _ (by simp [herr5]),
      publishStep_err cfg w _ (by simp [herr5])]
    refine ⟨⟨e, ?_⟩, hst5eff⟩
    rw [herr5]
  | none =>
    rw [tagStep_failure w _ herr5 hce hcs hcst]
    rw [pushStep_err cfg w _ (by simp),
      publishStep_err cfg w _ (by simp)]
    constructor
    · exact ⟨.cmdFailed w.tagRes.stderr, rfl⟩
    · intro e he
      dsimp only at he
      rcases List.mem_append.mp he with hm | hm
      · exact hst5eff e hm
      · simp only [List.mem_singleton] at hm
        subst hm
        rfl

/-- A push call that runs (pushing enabled and a remote configured) and
exits non-zero with non-empty stderr makes the whole run raise: the result
is an error and the publish step contributes no effect. -/
theorem run_push_failure_aborts (inc : List Char → List Char) (cfg : Config)
    (w : World) (store raw : List (String × List Char))
    (hdry : cfg.dryRun = false)
    (hpush : cfg.push = true)
    (hrem : remoteOrNA cfg.remoteURL ≠ ['N', '/', 'A'])
    (hce : w.pushRes.error = false)
    (hcs : w.pushRes.status ≠ 0)
    (hcst : w.pushRes.stderr ≠ []) :
    (∃ e, (runRelease inc cfg w store raw).2 = .error e) ∧
    ∀ eff ∈ (runRelease inc cfg w store raw).1,
      isPostPushEff eff = false := by
  unfold runRelease
  dsimp only
  rw [hdry]
  have hbase : ∀ e ∈ ((validateStep raw (testStep cfg w
      (inspectStep cfg.type (initSt store)))).1).effects,
      isPostPushEff e = false := by
    rw [validateStep_effects, testStep_effects, inspectStep_effects]
    intro e he
    simp [initSt] at he
  have hst4eff : ∀ eff ∈ (incrementAll inc false w
      (validateStep raw (testStep cfg w
        (inspectStep cfg.type (initSt store)))).2
      (validateStep raw (testStep cfg w
        (inspectStep cfg.type (initSt store)))).1).effects,
      isPostPushEff eff = false := by
    intro e he
    rcases incrementAll_effects_shape isPostPushEff (fun _ _ => rfl)
      (fun _ => rfl) inc false w _ _ e he with hmem | hp
    · exact hbase e hmem
    · exact hp
  have hst5eff : ∀ eff ∈ (commitStep false w (incrementAll inc false w
      (validateStep raw (testStep cfg w
        (inspectStep cfg.type (initSt store)))).2
      (validateStep raw (testStep cfg w
        (inspectStep cfg.type (initSt store)))).1)).effects,
      isPostPushEff eff = false := by
    intro e he
    rcases commitStep_effects_cases false w _ with h | h
    · rw [h] at he
      exact hst4eff e he
    · rw [h] at he
      rcases List.mem_append.mp he with hm | hm
      · exact hst4eff e hm
      · simp only [List.mem_singleton] at hm
        subst hm
        rfl
  have hst6eff : ∀ eff ∈ (tagStep false w (commitStep false w
      (incrementAll inc false w
        (validateStep raw (testStep cfg w
          (inspectStep cfg.type (initSt store)))).2
        (validateStep raw (testStep cfg w
          (inspectStep cfg.type (initSt store)))).1))).effects,
      isPostPushEff eff = false := by
    intro e he
    rcases tagStep_effects_cases false w _ with h | h
    · rw [h] at he
      exact hst5eff e he
    · rw [h] at he
      rcases List.mem_append.mp he with hm | hm
      · exact hst5eff e hm
      · simp only [List.mem_singleton] at hm
        subst hm
        rfl
  cases herr6 : (tagStep false w (commitStep false w
      (incrementAll inc false w
        (validateStep raw (testStep cfg w
          (inspectStep cfg.type (initSt store)))).2
        (validateStep raw (testStep cfg w
          (inspectStep cfg.type (initSt store)))).1))).err with
  | some e =>
    rw [pushStep_err cfg w _ (by simp [herr6]),
      publishStep_err cfg w _ (by simp [herr6])]
    refine ⟨⟨e, ?_⟩, hst6eff⟩
    rw [herr6]
  | none =>
    rw [pushStep_failure cfg w _ herr6 hdry hpush hrem hce hcs hcst]
    rw [publishStep_err cfg w _ (by simp)]
    constructor
    · exact ⟨.cmdFailed w.pushRes.stderr, rfl⟩
    · intro e he
      dsimp only at he
      rcases List.mem_append.mp he with hm | hm
      · exact hst6eff e hm
      · simp only [List.mem_singleton] at hm
        subst hm
        rfl

/-- C5 (amended): the abort policy of the mutating calls as the code
implements it.  A non-zero exit status aborts the run only for commit, tag
and push, and only when stderr is also non-empty: in that case the run
raises an error and no step after the failing one contributes an effect
(parts one to three); with a zero status or an empty stderr those three
steps leave the error state untouched (parts four to six).  The exit
status and stderr of stage (git add) and publish are never inspected: the
run's outcome depends on those two spawn results only through their
spawn-error flag (part seven).  No rollback is attempted: the effect log
of the increment phase is a prefix of the final effect log (part
eight). -/
theorem c5_abort_policy_amended :
    (∀ (inc : List Char → List Char) (cfg : Config) (w : World)
      (store raw : List (String × List Char)),
      cfg.dryRun = false → w.commitRes.error = false →
      w.commitRes.status ≠ 0 → w.commitRes.stderr ≠ [] →
      (∃ e, (runRelease inc cfg w store raw).2 = .error e) ∧
      ∀ eff ∈ (runRelease inc cfg w store raw).1,
        isPostCommitEff eff = false) ∧
    (∀ (inc : List Char → List Char) (cfg : Config) (w : World)
      (store raw : List (String × List Char)),
      cfg.dryRun = false → w.tagRes.error = false →
      w.tagRes.status ≠ 0 → w.tagRes.stderr ≠ [] →
      (∃ e, (runRelease inc cfg w store raw).2 = .error e) ∧
      ∀ eff ∈ (runRelease inc cfg w store raw).1,
        isPostTagEff eff = false) ∧
    (∀ (inc : List Char → List Char) (cfg : Config) (w : World)
      (store raw : List (String × List Char)),
      cfg.dryRun = false → cfg.push = true →
      remoteOrNA cfg.remoteURL ≠ ['N', '/', 'A'] →
      w.pushRes.error = false → w.pushRes.status ≠ 0 →
      w.pushRes.stderr ≠ [] →
      (∃ e, (runRelease inc cfg w store raw).2 = .error e) ∧
      ∀ eff ∈ (runRelease inc cfg w store raw).1,
        isPostPushEff eff = false) ∧
    (∀ (w : World) (st : RunSt), w.commitRes.error = false →
      w.commitRes.status = 0 ∨ w.commitRes.stderr = [] →
      (commitStep false w st).err = st.err) ∧
    (∀ (w : World) (st : RunSt), w.tagRes.error = false →
      w.tagRes.status = 0 ∨ w.tagRes.stderr = [] →
      (tagStep false w st).err = st.err) ∧
    (∀ (cfg : Config) (w : World) (st : RunSt), w.pushRes.error = false →
      w.pushRes.status = 0 ∨ w.pushRes.stderr = [] →
      (pushStep cfg w st).err = st.err) ∧
    (∀ (inc : List Char → List Char) (cfg : Config) (w w' : World)
      (store raw : List (String × List Char)),
      (∀ f, (w'.addRes f).error = (w.addRes f).error) →
      w'.testRes = w.testRes → w'.commitRes = w.commitRes →
      w'.tagRes = w.tagRes → w'.pushRes = w.pushRes →
      (w'.publishRes).error = (w.publishRes).error →
      runRelease inc cfg w' store raw = runRelease inc cfg w store raw) ∧
    (∀ (inc : List Char → List Char) (cfg : Config) (w : World)
      (store raw : List (String × List Char)),
      List.IsPrefix
        (incrementAll inc cfg.dryRun w
          (validateStep raw (testStep cfg w
            (inspectStep cfg.type (initSt store)))).2
          (validateStep raw (testStep cfg w
            (inspectStep cfg.type (initSt store)))).1).effects
        (runRelease inc cfg w store raw).1) := by
  refine ⟨?_, ?_, ?_, ?_, ?_, ?_, ?_, ?_⟩
  · intro inc cfg w store raw h1 h2 h3 h4
    exact run_commit_failure_aborts inc cfg w store raw h1 h2 h3 h4
  · intro inc cfg w store raw h1 h2 h3 h4
    exact run_tag_failure_aborts inc cfg w store raw h1 h2 h3 h4
  · intro inc cfg w store raw h1 h2 h3 h4 h5 h6
    exact run_push_failure_aborts inc cfg w store raw h1 h2 h3 h4 h5 h6
  · intro w st h1 h2
    exact commitStep_status_without_stderr w st h1 h2
  · intro w st h1 h2
    exact tagStep_status_without_stderr w st h1 h2
  · intro cfg w st h1 h2
    exact pushStep_status_without_stderr cfg w st h1 h2
  · intro inc cfg w w' store raw h1 h2 h3 h4 h5 h6
    exact runRelease_world_congr inc cfg w w' store raw h1 h2 h3 h4 h5 h6
  · intro inc cfg w store raw
    exact runRelease_effects_extend inc cfg w store raw

/-- C5 witness: the amended policy at concrete runs — a failing commit
aborts with no post-commit effect, a zero-status commit does not abort,
the run is unchanged when the stage call's exit status and stderr change
with the spawn-error flag fixed, and the increment-phase effect log is a
prefix of the final one. -/
theorem c5_abort_policy_amended_witness :
    ((∃ e, (runRelease incConst (cfgBase false)
        { worldOk with commitRes := failRes } storeA rawA).2 = .error e) ∧
      ∀ eff ∈ (runRelease incConst (cfgBase false)
        { worldOk with commitRes := failRes } storeA rawA).1,
        isPostCommitEff eff = false) ∧
    (commitStep false worldOk (initSt storeA)).err = (initSt storeA).err ∧
    runRelease incConst (cfgBase false) worldOk storeA rawA
      = runRelease incConst (cfgBase false) worldAddFail storeA rawA ∧
    List.IsPrefix
      (incrementAll incConst (cfgBase false).dryRun worldAddFail
        (validateStep rawA (testStep (cfgBase false) worldAddFail
          (inspectStep (cfgBase false).type (initSt storeA)))).2
        (validateStep rawA (testStep (cfgBase false) worldAddFail
          (inspectStep (cfgBase false).type (initSt storeA)))).1).effects
      (runRelease incConst (cfgBase false) worldAddFail storeA rawA).1 :=
  ⟨c5_abort_policy_amended.1 incConst (cfgBase false)
      { worldOk with commitRes := failRes } storeA rawA rfl rfl
      (by simp [failRes]) (by simp [failRes]),
    c5_abort_policy_amended.2.2.2.1 worldOk (initSt storeA) rfl (Or.inl rfl),
    c5_abort_policy_amended.2.2.2.2.2.2.1 incConst (cfgBase false)
      worldAddFail worldOk storeA rawA (fun _ => rfl) rfl rfl rfl rfl rfl,
    c5_abort_policy_amended.2.2.2.2.2.2.2 incConst (cfgBase false)
      worldAddFail storeA rawA⟩

/-- C6 (amended): a non-numeric line token aborts during target
configuration with the invalid-line validation error before any file is
touched (the run produces no effect at all); a numeric token exceeding the
file's split line count passes validation and aborts later, inside the
increment loop, with the JS undefined-receiver type error when the missing
line is accessed — files of targets processed earlier in the same
invocation have already been written and staged and are not rolled back. -/
theorem c6_line_validation_amended :
    (∀ (inc : List Char → List Char) (cfg : Config) (w : World)
      (store raw : List (String × List Char)) (f : String) (tok : List Char),
      isReleaseType cfg.type = true → w.testRes.error = false →
      (f, tok) ∈ raw → lineTokenValid tok = false →
      (∀ p ∈ raw, (lookupStore store p.1).isSome = true) →
      ∃ tok2, runRelease inc cfg w store raw
        = ([], .error (.invalidLine tok2))) ∧
    (∀ (inc : List Char → List Char) (dry : Bool) (w : World) (st : RunSt)
      (f : String) (line : Nat) (source : List Char),
      lookupStore st.store f = some source →
      (jsSplit (detectLineEnding source) source).length < line →
      incrementOne inc dry w st (f, line)
        = { st with err := some .typeError }) := by
  constructor
  · intro inc cfg w store raw f tok htype htest hmem hbad hex
    obtain ⟨tok2, _, hval⟩ :=
      validateTargets_error_bad_token store raw f tok hmem hbad hex
    exact ⟨tok2, runRelease_validate_error inc cfg w store raw _ htype
      htest hval⟩
  · intro inc dry w st f line source hlook hlen
    exact incrementOne_oob inc dry w st f line source hlook
      (by intro hc; omega)

/-- C6 counterexample: in a two-target run whose second target names line
five of a one-line file, the run aborts with a type error, not a
validation error, and only after the first target's file was already
written and staged — refuting the claim that no file is written. -/
theorem c6_overflow_after_write_counterexample :
    runRelease incConst (cfgBase false) worldOk storeAB rawABOver =
      ([Eff.writeFile fileA ['v', ' ', '9', '.', '9', '.', '9'],
        Eff.gitAdd fileA], .error .typeError) := by
  simp [runRelease, initSt, inspectStep, isReleaseType, cfgBase, testStep,
    validateStep, validateTargets, lineTokenValid, digitsToNat, lookupStore,
    storeAB, rawABOver, fileA, fileB, contentA, incrementAll, incrementOne,
    detectLineEnding, jsSplit, splitNE, List.isPrefixOf, crffToken,
    replaceInc, firstMatch, matchMainAt, matchNum, joinSep, updateStore,
    incConst, worldOk, okRes, commitStep, tagStep, pushStep, publishStep,
    remoteOrNA]

/-- C6 witness: the amended claim at concrete inputs — a non-numeric token
aborts the whole run with the invalid-line error and no effects, and an
oversized numeric line yields the type error at the increment step. -/
theorem c6_line_validation_amended_witness :
    (∃ tok2, runRelease incConst (cfgBase false) worldOk storeA
      [(fileA, ['x'])] = ([], .error (.invalidLine tok2))) ∧
    incrementOne incConst false worldOk (initSt storeB) (fileB, 5)
      = { initSt storeB with err := some .typeError } := by
  constructor
  · exact c6_line_validation_amended.1 incConst (cfgBase false) worldOk
      storeA [(fileA, ['x'])] fileA ['x'] (by decide) rfl (by simp)
      (by decide)
      (by
        intro p hp
        simp only [List.mem_singleton] at hp
        subst hp
        simp [storeA, lookupStore])
  · exact c6_line_validation_amended.2 incConst false worldOk (initSt storeB)
      fileB 5 ['x'] (by simp [storeB, initSt, lookupStore])
      (by simp [detectLineEnding, jsSplit, splitNE, List.isPrefixOf,
        crffToken])

end GitRelease
